import Mathlib

/-!
# miniJVM `arraylist.c`: a shallow embedding

The container of `src/mini_jvm/utils/arraylist.c` is embedded as a record of
its four fields.  The heap block behind `data` is a list of slots, `int`
arithmetic wraps at 32 bits, the spin lock is a held/free flag, and a call
either returns or gets stuck (it spins forever on a held lock, or it touches
memory outside the heap block).  The allocator's decision is an argument of
the call; a request above `PTRDIFF_MAX` bytes is always refused.  The recursion
of the sort is bounded by a counter of nested calls, and the bound is proved
never to be reached.
-/

namespace ArrayListModel

/-- The stored handle `ArrayListValue` (a `void *`): an opaque machine word. -/
abbrev ArrayListValue := Nat

/-- The null handle. -/
def NULL : ArrayListValue := 0

/-- Largest value of a C `int`. -/
def INT_MAX : Int := 2147483647

/-- Smallest value of a C `int`. -/
def INT_MIN : Int := -2147483648

/-- Result of a C `int` operation, reduced to the 32-bit two's complement range. -/
def wrap32 (x : Int) : Int := (x + 2147483648) % 4294967296 - 2147483648

/-- Size in bytes of one slot, `sizeof(ArrayListValue)`, on an LP64 target. -/
def sizeof_ArrayListValue : Nat := 8

/-- Number of values of `size_t` on an LP64 target. -/
def SIZE_MOD : Nat := 18446744073709551616

/-- The byte count `count * sizeof(ArrayListValue)`: the `int` is converted to
`size_t` and the product is taken modulo the range of `size_t`. -/
def byte_size (count : Int) : Nat :=
  (sizeof_ArrayListValue * (count % (SIZE_MOD : Int)).toNat) % SIZE_MOD

/-- The record `ArrayList`: the heap block behind `data` (one list element per
allocated slot), the fields `length` and `_alloced`, and the spin lock
(`true` when held). -/
structure ArrayList where
  data : List ArrayListValue
  length : Int
  _alloced : Int
  spinlock : Bool
deriving DecidableEq, Repr

/-- How a call ends: it returns a value, or it never returns because it spins
on a lock that is already held, or it accesses memory outside the heap block. -/
inductive Outcome (α : Type) where
  | ret (x : α)
  | deadlock
  | fault
deriving DecidableEq, Repr

/-- Sequencing of calls: a stuck call stays stuck. -/
def Outcome.bind {α β : Type} (o : Outcome α) (f : α → Outcome β) : Outcome β :=
  match o with
  | .ret x => f x
  | .deadlock => .deadlock
  | .fault => .fault

/-- The occupied slots `[0, length)` of the container, in index order. -/
def slots (a : ArrayList) : List ArrayListValue :=
  a.data.take a.length.toNat

/-- Representation invariant of a container: `0 <= length <= _alloced`, the
field `_alloced` is the number of slots of the heap block, and it is a valid
`int`. -/
abbrev WF (a : ArrayList) : Prop :=
  0 ≤ a.length ∧ a.length ≤ a._alloced ∧ a._alloced ≤ INT_MAX ∧
    (a.data.length : Int) = a._alloced

/-- The call `pthread_spin_lock`: takes a free lock, spins forever on a held one. -/
def pthread_spin_lock (a : ArrayList) : Outcome ArrayList :=
  if a.spinlock then .deadlock else .ret { a with spinlock := true }

/-- The call `pthread_spin_unlock`. -/
def pthread_spin_unlock (a : ArrayList) : ArrayList :=
  { a with spinlock := false }

/-- Reading `block[i]`. -/
def load (block : List ArrayListValue) (i : Int) : Outcome ArrayListValue :=
  if i < 0 then .fault
  else match block[i.toNat]? with
    | some v => .ret v
    | none => .fault

/-- Writing `block[i] = v`. -/
def store (block : List ArrayListValue) (i : Int) (v : ArrayListValue) :
    Outcome (List ArrayListValue) :=
  if 0 ≤ i ∧ i < (block.length : Int) then .ret (block.set i.toNat v) else .fault

/-- The call `memmove(&block[dst], &block[src], bytes)`: the slots
`[src, src + n)` are copied to `[dst, dst + n)` as if through a temporary
buffer, `n = bytes / sizeof(ArrayListValue)`; both ranges must lie inside the
block. -/
def memmove (block : List ArrayListValue) (dst src : Int) (bytes : Nat) :
    Outcome (List ArrayListValue) :=
  let n := bytes / sizeof_ArrayListValue
  if 0 ≤ dst ∧ 0 ≤ src ∧ dst + (n : Int) ≤ (block.length : Int) ∧
      src + (n : Int) ≤ (block.length : Int) then
    .ret (block.take dst.toNat ++ (block.drop src.toNat).take n ++
      block.drop (dst.toNat + n))
  else .fault

/-- Largest size of an object, `PTRDIFF_MAX` on an LP64 target. -/
def PTRDIFF_MAX : Nat := 9223372036854775807

/-- Modelled from the spec: `jvm_realloc` is not part of the sources; the
allocator is "assumed to return null on failure and leave prior allocations
valid".  The argument `oracle` is the allocator's decision: `none` is the null
result, `some fill` is success, the block then has `bytes /
sizeof(ArrayListValue)` slots, beginning with the old contents, and `fill` is
the indeterminate content of the added slots.  A request above `PTRDIFF_MAX`
bytes is refused whatever the decision: no object is that large. -/
def jvm_realloc (block : List ArrayListValue) (bytes : Nat)
    (oracle : Option ArrayListValue) : Option (List ArrayListValue) :=
  match oracle with
  | none => none
  | some fill =>
    if bytes ≤ PTRDIFF_MAX then
      let n := bytes / sizeof_ArrayListValue
      some (block.take n ++ List.replicate (n - block.length) fill)
    else none

/-- Modelled from the spec: `jvm_calloc` is not part of the sources; it is the
allocator's zero-initialising primitive, null on failure.  `ok` is the
allocator's decision. -/
def jvm_calloc (bytes : Nat) (ok : Bool) : Option (List ArrayListValue) :=
  if ok then some (List.replicate (bytes / sizeof_ArrayListValue) NULL) else none

/-- `arraylist_create` (lines 41-73); `none` is the NULL result.  `ok1` and
`ok2` decide the two allocations. -/
def arraylist_create (length : Int) (ok1 ok2 : Bool) : Option ArrayList :=
  let length := if length ≤ 0 then 16 else length
  if ok1 then
    match jvm_calloc (byte_size length) ok2 with
    | none => none
    | some block =>
      some { data := block, length := 0, _alloced := length, spinlock := false }
  else none

/-- `arraylist_enlarge` (lines 85-105): returns the container and the `int`
result. -/
def arraylist_enlarge (arraylist : ArrayList) (oracle : Option ArrayListValue) :
    ArrayList × Int :=
  let newsize := wrap32 (arraylist._alloced * 2)
  match jvm_realloc arraylist.data (byte_size newsize) oracle with
  | none => (arraylist, 0)
  | some data => ({ arraylist with data := data, _alloced := newsize }, 1)

/-- `arraylist_insert` (lines 107-139).  The early `return 0` of line 113
leaves the function without reaching `pthread_spin_unlock`. -/
def arraylist_insert (arraylist : ArrayList) (index : Int) (data : ArrayListValue)
    (oracle : Option ArrayListValue) : Outcome (ArrayList × Int) :=
  (pthread_spin_lock arraylist).bind fun a =>
    if index < 0 ∨ index > a.length then .ret (a, 0)
    else
      let g : ArrayList × Int :=
        if wrap32 (a.length + 1) > a._alloced then
          let e := arraylist_enlarge a oracle
          if e.2 = 0 then (e.1, 0) else (e.1, 1)
        else (a, 1)
      let a1 := g.1
      let doit := g.2
      if doit ≠ 0 then
        (memmove a1.data (wrap32 (index + 1)) index
            (byte_size (wrap32 (a1.length - index)))).bind fun moved =>
          (store moved index data).bind fun written =>
            .ret (pthread_spin_unlock
              { a1 with data := written, length := wrap32 (a1.length + 1) }, 1)
      else .ret (pthread_spin_unlock a1, 1)

/-- `arraylist_compare_ptr` (lines 189-191). -/
def arraylist_compare_ptr (a b : ArrayListValue) : Int :=
  if a = b then 1 else 0

/-- `arraylist_remove_range` (lines 169-187); it takes no lock itself. -/
def arraylist_remove_range (arraylist : ArrayList) (index length : Int) :
    Outcome ArrayList :=
  if index < 0 ∨ length < 0 ∨ wrap32 (index + length) > arraylist.length then
    .ret arraylist
  else
    (memmove arraylist.data index (wrap32 (index + length))
        (byte_size (wrap32 (arraylist.length - wrap32 (index + length))))).bind
      fun moved =>
        .ret { arraylist with data := moved, length := wrap32 (arraylist.length - length) }

/-- The scanning loop `for (i = 0; i < length; ++i) if (equals(data[i], data))
{ index = i; break; }` of `arraylist_remove` (lines 147-152) and
`arraylist_index_of` (lines 208-213), entered at counter `i` with `trips`
iterations left (`length - i`); the result is the final `index`.  The counter
stays below `length`, so it never overflows. -/
def scan_loop (equals : ArrayListValue → ArrayListValue → Int)
    (block : List ArrayListValue) (data : ArrayListValue) :
    Nat → Nat → Outcome Int
  | 0, _ => .ret (-1)
  | trips + 1, i =>
    (load block (i : Int)).bind fun x =>
      if equals x data ≠ 0 then .ret (i : Int)
      else scan_loop equals block data trips (i + 1)

/-- `arraylist_remove` (lines 142-158). -/
def arraylist_remove (arraylist : ArrayList) (data : ArrayListValue) :
    Outcome (ArrayList × Int) :=
  (pthread_spin_lock arraylist).bind fun a =>
    (scan_loop arraylist_compare_ptr a.data data a.length.toNat 0).bind fun index =>
      (if index ≥ 0 then arraylist_remove_range a index 1 else .ret a).bind fun a1 =>
        .ret (pthread_spin_unlock a1, index)

/-- `arraylist_push_end` (lines 165-167). -/
def arraylist_push_end (arraylist : ArrayList) (data : ArrayListValue)
    (oracle : Option ArrayListValue) : Outcome (ArrayList × Int) :=
  arraylist_insert arraylist arraylist.length data oracle

/-- `arraylist_remove_at` (lines 193-199). -/
def arraylist_remove_at (arraylist : ArrayList) (index : Int) : Outcome ArrayList :=
  (pthread_spin_lock arraylist).bind fun a =>
    (arraylist_remove_range a index 1).bind fun a1 =>
      .ret (pthread_spin_unlock a1)

/-- `arraylist_index_of` (lines 201-217). -/
def arraylist_index_of (arraylist : ArrayList)
    (equals : ArrayListValue → ArrayListValue → Int) (data : ArrayListValue) :
    Outcome (ArrayList × Int) :=
  (pthread_spin_lock arraylist).bind fun a =>
    (scan_loop equals a.data data a.length.toNat 0).bind fun index =>
      .ret (pthread_spin_unlock a, index)

/-- `arraylist_get_value` (lines 219-228). -/
def arraylist_get_value (arraylist : ArrayList) (index : Int) :
    Outcome (ArrayList × ArrayListValue) :=
  (pthread_spin_lock arraylist).bind fun a =>
    (if index ≥ 0 ∧ index < a.length then load a.data index else .ret NULL).bind
      fun value => .ret (pthread_spin_unlock a, value)

/-- `arraylist_pop_front` (lines 230-241). -/
def arraylist_pop_front (arraylist : ArrayList) : Outcome (ArrayList × ArrayListValue) :=
  (pthread_spin_lock arraylist).bind fun a =>
    if a.length > 0 then
      (load a.data 0).bind fun v =>
        (arraylist_remove_range a 0 1).bind fun a1 =>
          .ret (pthread_spin_unlock a1, v)
    else .ret (pthread_spin_unlock a, NULL)

/-- `arraylist_pop_back` (lines 243-254). -/
def arraylist_pop_back (arraylist : ArrayList) : Outcome (ArrayList × ArrayListValue) :=
  (pthread_spin_lock arraylist).bind fun a =>
    if a.length > 0 then
      (load a.data (wrap32 (a.length - 1))).bind fun v =>
        .ret (pthread_spin_unlock { a with length := wrap32 (a.length - 1) }, v)
    else .ret (pthread_spin_unlock a, NULL)

/-- `arraylist_clear` (lines 256-260); it takes no lock. -/
def arraylist_clear (arraylist : ArrayList) : ArrayList :=
  { arraylist with length := 0 }

/-- The partition loop of `arraylist_sort_internal` (lines 293-311), `for (i =
0; i < list_length - 1; ++i)`, entered at counter `i` with `trips` iterations
left; `list_data` is the memory from the pointer `list_data` to the end of the
heap block.  The result is the memory and `list1_length` after the loop.  The
counter stays below `list_length`, so it never overflows. -/
def partition_loop (compare_func : ArrayListValue → ArrayListValue → Int)
    (pivot : ArrayListValue) :
    Nat → List ArrayListValue → Nat → Int → Outcome (List ArrayListValue × Int)
  | 0, list_data, _, list1_length => .ret (list_data, list1_length)
  | trips + 1, list_data, i, list1_length =>
    (load list_data (i : Int)).bind fun x =>
      if compare_func x pivot < 0 then
        (load list_data list1_length).bind fun y =>
          (store list_data (i : Int) y).bind fun d1 =>
            (store d1 list1_length x).bind fun d2 =>
              partition_loop compare_func pivot trips d2 (i + 1) (wrap32 (list1_length + 1))
      else partition_loop compare_func pivot trips list_data (i + 1) list1_length

/-- Lines 278-326 of `arraylist_sort_internal`, run when `list_length > 1`: the
last item is taken as the pivot, the partition loop runs, `list2_length` is
computed and the pivot is swapped into place.  The result is the memory,
`list1_length` and `list2_length`. -/
def sort_split (compare_func : ArrayListValue → ArrayListValue → Int)
    (list_data : List ArrayListValue) (list_length : Int) :
    Outcome (List ArrayListValue × Int × Int) :=
  (load list_data (wrap32 (list_length - 1))).bind fun pivot =>
    (partition_loop compare_func pivot (wrap32 (list_length - 1)).toNat list_data 0 0).bind
      fun r =>
        let list1_length := r.2
        let list2_length := wrap32 (wrap32 (list_length - list1_length) - 1)
        (load r.1 list1_length).bind fun y =>
          (store r.1 (wrap32 (list_length - 1)) y).bind fun d1 =>
            (store d1 list1_length pivot).bind fun d2 =>
              .ret (d2, list1_length, list2_length)

/-- `arraylist_sort_internal` (lines 262-334) on the memory from the pointer
`list_data` to the end of the heap block.  The recursion is bounded by a
counter of nested calls; `none` means the counter ran out before the recursion
ended.  The second recursive call works on the memory from
`&list_data[list1_length + 1]` on; a pointer outside the heap block is a
fault. -/
def arraylist_sort_internal (compare_func : ArrayListValue → ArrayListValue → Int) :
    Nat → List ArrayListValue → Int → Option (Outcome (List ArrayListValue))
  | 0, list_data, list_length =>
    if list_length ≤ 1 then some (.ret list_data) else none
  | depth + 1, list_data, list_length =>
    if list_length ≤ 1 then some (.ret list_data)
    else
      match sort_split compare_func list_data list_length with
      | .deadlock => some .deadlock
      | .fault => some .fault
      | .ret (d, list1_length, list2_length) =>
        match arraylist_sort_internal compare_func depth d list1_length with
        | none => none
        | some .deadlock => some .deadlock
        | some .fault => some .fault
        | some (.ret d3) =>
          let off := wrap32 (list1_length + 1)
          if 0 ≤ off ∧ off ≤ (d3.length : Int) then
            match arraylist_sort_internal compare_func depth (d3.drop off.toNat)
                list2_length with
            | none => none
            | some .deadlock => some .deadlock
            | some .fault => some .fault
            | some (.ret t) => some (.ret (d3.take off.toNat ++ t))
          else some .fault

/-- `arraylist_sort` (lines 336-343).  The nesting of the recursive calls is
bounded by `length`; `none` means that bound was not enough. -/
def arraylist_sort (arraylist : ArrayList)
    (compare_func : ArrayListValue → ArrayListValue → Int) : Option (Outcome ArrayList) :=
  match pthread_spin_lock arraylist with
  | .deadlock => some .deadlock
  | .fault => some .fault
  | .ret a =>
    match arraylist_sort_internal compare_func a.length.toNat a.data a.length with
    | none => none
    | some .deadlock => some .deadlock
    | some .fault => some .fault
    | some (.ret d) => some (.ret (pthread_spin_unlock { a with data := d }))

/-- The numeric ascending three-way comparator on handles. -/
def numeric_compare (a b : ArrayListValue) : Int :=
  if a < b then -1 else if a = b then 0 else 1

/-- The comparator under which all handles tie. -/
def tie_compare (_a _b : ArrayListValue) : Int := 0

/-- A container holding `[5, 3, 1, 4]` in a block of four slots, lock free. -/
def sample5314 : ArrayList :=
  { data := [5, 3, 1, 4], length := 4, _alloced := 4, spinlock := false }

/-- A full container of capacity `2^30`, every slot holding NULL, lock free. -/
def sampleHugeFull : ArrayList :=
  { data := List.replicate 1073741824 NULL, length := 1073741824, _alloced := 1073741824,
    spinlock := false }

/-- The calls `arraylist_push_end(L, v)` for the values of a list, one after
the other, every reallocation that is asked for succeeding (with `fill` in the
added slots). -/
def push_end_all (fill : ArrayListValue) : ArrayList → List ArrayListValue → Outcome ArrayList
  | a, [] => .ret a
  | a, v :: vs =>
    (arraylist_push_end a v (some fill)).bind fun r => push_end_all fill r.1 vs

/-- A container holding `[7, 8, 9]` in a block of four slots, lock free. -/
def sample3 : ArrayList :=
  { data := [7, 8, 9, 0], length := 3, _alloced := 4, spinlock := false }

/-- A full container holding `[7, 8]` in a block of two slots, lock free. -/
def sampleFull : ArrayList :=
  { data := [7, 8], length := 2, _alloced := 2, spinlock := false }

/-! ## Arithmetic of `int` and `size_t` -/

theorem wrap32_of_range (x : Int) (h1 : -2147483648 ≤ x) (h2 : x ≤ 2147483647) :
    wrap32 x = x := by
  unfold wrap32; omega

theorem byte_size_slots (n : Int) (h0 : 0 ≤ n) (h1 : n ≤ 2147483647) :
    byte_size n / sizeof_ArrayListValue = n.toNat := by
  unfold byte_size sizeof_ArrayListValue SIZE_MOD
  simp only [Nat.cast_ofNat]
  omega

/-- A doubling of a capacity in `[0, INT_MAX]` that the allocator can grant
does not wrap: a wrapped double is negative, and converted to `size_t` its byte
count is above `PTRDIFF_MAX`. -/
theorem granted_fits (c : Int) (h0 : 0 ≤ c) (h1 : c ≤ 2147483647)
    (hgrant : byte_size (wrap32 (c * 2)) ≤ PTRDIFF_MAX) : c * 2 ≤ 2147483647 := by
  unfold byte_size wrap32 sizeof_ArrayListValue SIZE_MOD PTRDIFF_MAX at hgrant
  simp only [Nat.cast_ofNat] at hgrant
  omega

/-- The wrapped double of an `int` capacity that the allocator can grant is not
below the capacity. -/
theorem granted_not_below (c : Int) (h0 : -2147483648 ≤ c) (h1 : c ≤ 2147483647)
    (hgrant : byte_size (wrap32 (c * 2)) ≤ PTRDIFF_MAX) : c ≤ wrap32 (c * 2) := by
  unfold byte_size sizeof_ArrayListValue SIZE_MOD PTRDIFF_MAX at hgrant
  simp only [Nat.cast_ofNat] at hgrant
  unfold wrap32 at hgrant ⊢
  omega

/-- A doubling that fits an `int` asks for at most `PTRDIFF_MAX` bytes. -/
theorem fits_granted (c : Int) (h0 : 0 ≤ c) (h1 : c * 2 ≤ 2147483647) :
    byte_size (wrap32 (c * 2)) ≤ PTRDIFF_MAX := by
  unfold byte_size wrap32 sizeof_ArrayListValue SIZE_MOD PTRDIFF_MAX
  simp only [Nat.cast_ofNat]
  omega

/-- A successful `jvm_realloc`: the request is at most `PTRDIFF_MAX` bytes and
the block holds the old contents followed by the added slots. -/
theorem realloc_some {block d : List ArrayListValue} {bytes : Nat}
    {oracle : Option ArrayListValue} (h : jvm_realloc block bytes oracle = some d) :
    bytes ≤ PTRDIFF_MAX ∧ ∃ fill, oracle = some fill ∧
      d = block.take (bytes / sizeof_ArrayListValue) ++
        List.replicate (bytes / sizeof_ArrayListValue - block.length) fill := by
  cases oracle with
  | none => simp [jvm_realloc] at h
  | some fill =>
    by_cases hb : bytes ≤ PTRDIFF_MAX
    · simp only [jvm_realloc, if_pos hb, Option.some.injEq] at h
      exact ⟨hb, fill, rfl, h.symm⟩
    · simp [jvm_realloc, hb] at h

/-! ## Shapes of the shifted block -/

theorem insert_shape (d : List ArrayListValue) (i L : Nat) (v : ArrayListValue)
    (hi : i ≤ L) (hL : L < d.length) :
    ((d.take (i + 1) ++ (d.drop i).take (L - i) ++ d.drop (i + 1 + (L - i))).set i v).take
        (L + 1)
      = (d.take L).take i ++ v :: (d.take L).drop i := by
  induction i generalizing d L with
  | zero =>
    cases d with
    | nil => simp at hL
    | cons x t =>
      simp at hL
      simp [List.take_append_eq_append_take, List.take_take]
      omega
  | succ j ih =>
    cases d with
    | nil => simp at hL
    | cons x t =>
      cases L with
      | zero => omega
      | succ M =>
        simp at hL
        have key := ih t M (by omega) hL
        simp only [List.take_succ_cons, List.drop_succ_cons, List.cons_append,
          List.set_cons_succ, Nat.add_sub_add_right] at key ⊢
        have e : j + 1 + 1 + (M - j) = (j + 1 + (M - j)) + 1 := by omega
        rw [e, List.drop_succ_cons]
        simp only [List.cons.injEq, true_and]
        exact key

theorem remove_shape (d : List ArrayListValue) (i c L : Nat) (h : i + c ≤ L)
    (hL : L ≤ d.length) :
    (d.take i ++ (d.drop (i + c)).take (L - (i + c)) ++
        d.drop (i + (L - (i + c)))).take (L - c)
      = (d.take L).take i ++ (d.take L).drop (i + c) := by
  induction i generalizing d L with
  | zero =>
    simp only [List.take_zero, List.nil_append, Nat.zero_add]
    rw [List.take_append_of_le_length (by simp; omega)]
    rw [List.take_take, List.drop_take]
    simp
  | succ j ih =>
    cases d with
    | nil => simp at hL; omega
    | cons x t =>
      cases L with
      | zero => omega
      | succ M =>
        simp at hL
        have key := ih t M (by omega) hL
        have e1 : j + 1 + c = (j + c) + 1 := by omega
        have e2 : M + 1 - (j + c + 1) = M - (j + c) := by omega
        have e3 : j + 1 + (M - (j + c)) = (j + (M - (j + c))) + 1 := by omega
        have e4 : M + 1 - c = (M - c) + 1 := by omega
        rw [e1, e2, e3, e4]
        simp only [List.take_succ_cons, List.drop_succ_cons, List.cons_append]
        simp only [List.cons.injEq, true_and]
        exact key

/-! ## `arraylist_insert` -/

/-- The shift and the write of lines 126-132 on a block with a free slot after
the occupied range. -/
theorem shift_and_write (d : List ArrayListValue) (L index : Int) (v : ArrayListValue)
    (h0 : 0 ≤ index) (h1 : index ≤ L) (hL : L < (d.length : Int))
    (hmax : L < 2147483647) :
    ∃ m w, memmove d (wrap32 (index + 1)) index (byte_size (wrap32 (L - index))) = .ret m ∧
      store m index v = .ret w ∧ w.length = d.length ∧
      w.take (L.toNat + 1) =
        (d.take L.toNat).take index.toNat ++ v :: (d.take L.toNat).drop index.toNat := by
  have e1 : wrap32 (index + 1) = index + 1 := wrap32_of_range _ (by omega) (by omega)
  have e2 : wrap32 (L - index) = L - index := wrap32_of_range _ (by omega) (by omega)
  have e3 : byte_size (L - index) / sizeof_ArrayListValue = (L - index).toNat :=
    byte_size_slots _ (by omega) (by omega)
  have e4 : (L - index).toNat = L.toNat - index.toNat := by omega
  have e5 : (index + 1).toNat = index.toNat + 1 := by omega
  refine ⟨d.take (index.toNat + 1) ++ (d.drop index.toNat).take (L.toNat - index.toNat) ++
      d.drop (index.toNat + 1 + (L.toNat - index.toNat)),
    (d.take (index.toNat + 1) ++ (d.drop index.toNat).take (L.toNat - index.toNat) ++
      d.drop (index.toNat + 1 + (L.toNat - index.toNat))).set index.toNat v, ?_, ?_, ?_, ?_⟩
  · unfold memmove
    simp only [e1, e2, e3, e4, e5]
    rw [if_pos]
    refine ⟨by omega, h0, ?_, ?_⟩ <;> omega
  · unfold store
    rw [if_pos]
    constructor
    · exact h0
    · simp only [List.length_append, List.length_take, List.length_drop]
      omega
  · simp only [List.length_set, List.length_append, List.length_take, List.length_drop]
    omega
  · exact insert_shape d index.toNat L.toNat v (by omega) (by omega)

theorem Outcome.bind_ret {α β : Type} (x : α) (f : α → Outcome β) :
    (Outcome.ret x).bind f = f x := rfl

theorem spin_lock_free (a : ArrayList) (hfree : a.spinlock = false) :
    pthread_spin_lock a = .ret { a with spinlock := true } := by
  simp [pthread_spin_lock, hfree]

theorem unlock_lock (a : ArrayList) (hfree : a.spinlock = false) :
    pthread_spin_unlock { a with spinlock := true } = a := by
  cases a
  simp_all [pthread_spin_unlock]

/-- The path of `arraylist_insert` that skips the growth step. -/
theorem insert_no_growth (a : ArrayList) (index : Int) (v : ArrayListValue)
    (oracle : Option ArrayListValue) (hfree : a.spinlock = false)
    (hrange : ¬ (index < 0 ∨ index > a.length))
    (hroom : ¬ (wrap32 (a.length + 1) > a._alloced)) :
    arraylist_insert a index v oracle =
      (memmove a.data (wrap32 (index + 1)) index
          (byte_size (wrap32 (a.length - index)))).bind fun moved =>
        (store moved index v).bind fun written =>
          .ret ({ data := written, length := wrap32 (a.length + 1),
                  _alloced := a._alloced, spinlock := false }, 1) := by
  unfold arraylist_insert
  rw [spin_lock_free a hfree, Outcome.bind_ret]
  dsimp only
  rw [if_neg hrange, if_neg hroom]
  simp only [ne_eq, one_ne_zero, not_false_eq_true, if_true, pthread_spin_unlock]

/-- The path of `arraylist_insert` through a successful growth step. -/
theorem insert_growth (a : ArrayList) (index : Int) (v fill : ArrayListValue)
    (hfree : a.spinlock = false) (hrange : ¬ (index < 0 ∨ index > a.length))
    (hfull : wrap32 (a.length + 1) > a._alloced)
    (hgrant : byte_size (wrap32 (a._alloced * 2)) ≤ PTRDIFF_MAX) :
    arraylist_insert a index v (some fill) =
      (memmove
          (a.data.take (byte_size (wrap32 (a._alloced * 2)) / sizeof_ArrayListValue) ++
            List.replicate
              (byte_size (wrap32 (a._alloced * 2)) / sizeof_ArrayListValue - a.data.length) fill)
          (wrap32 (index + 1)) index
          (byte_size (wrap32 (a.length - index)))).bind fun moved =>
        (store moved index v).bind fun written =>
          .ret ({ data := written, length := wrap32 (a.length + 1),
                  _alloced := wrap32 (a._alloced * 2), spinlock := false }, 1) := by
  unfold arraylist_insert
  rw [spin_lock_free a hfree, Outcome.bind_ret]
  dsimp only
  rw [if_neg hrange, if_pos hfull]
  simp only [arraylist_enlarge, jvm_realloc, if_pos hgrant, ne_eq, one_ne_zero,
    not_false_eq_true, if_true, if_false, pthread_spin_unlock]

/-- The path of `arraylist_insert` through a failed growth step: nothing is
inserted, the lock is released and the result is still 1. -/
theorem insert_growth_failed (a : ArrayList) (index : Int) (v : ArrayListValue)
    (oracle : Option ArrayListValue)
    (hfree : a.spinlock = false) (hrange : ¬ (index < 0 ∨ index > a.length))
    (hfull : wrap32 (a.length + 1) > a._alloced)
    (hnull : jvm_realloc a.data (byte_size (wrap32 (a._alloced * 2))) oracle = none) :
    arraylist_insert a index v oracle = .ret (a, 1) := by
  unfold arraylist_insert
  rw [spin_lock_free a hfree, Outcome.bind_ret]
  dsimp only
  rw [if_neg hrange, if_pos hfull]
  simp only [arraylist_enlarge, hnull, ne_eq, not_true_eq_false, if_true, if_false]
  rw [unlock_lock a hfree]

/-- C1: on a well-formed container with a free lock and an index in
`[0, length]`, when there is a free slot (`length < _alloced`) or the growth
step succeeds (`arraylist_enlarge` returns 1 and the capacity has grown),
`arraylist_insert` returns 1, the occupied slots become the old slots before
`index`, then the value, then the old slots from `index` on, and `length` is
one more. -/
theorem C1_insert_success (a : ArrayList) (index : Int) (v : ArrayListValue)
    (oracle : Option ArrayListValue)
    (hfree : a.spinlock = false) (hwf : WF a) (h0 : 0 ≤ index) (h1 : index ≤ a.length)
    (hgrow : a.length < a._alloced ∨
      ((arraylist_enlarge a oracle).2 = 1 ∧
        a._alloced < (arraylist_enlarge a oracle).1._alloced)) :
    ∃ a', arraylist_insert a index v oracle = .ret (a', 1) ∧
      slots a' = (slots a).take index.toNat ++ v :: (slots a).drop index.toNat ∧
      a'.length = a.length + 1 := by
  obtain ⟨hl0, hl1, hcapmax, hblk⟩ := hwf
  unfold INT_MAX at hcapmax
  have hrange : ¬ (index < 0 ∨ index > a.length) := by omega
  by_cases hlt : a.length < a._alloced
  · have hno : ¬ (wrap32 (a.length + 1) > a._alloced) := by
      rw [wrap32_of_range _ (by omega) (by omega)]; omega
    obtain ⟨m, w, hm, hw, hwl, hshape⟩ :=
      shift_and_write a.data a.length index v h0 h1 (by omega) (by omega)
    refine ⟨{ data := w, length := wrap32 (a.length + 1), _alloced := a._alloced,
              spinlock := false }, ?_, ?_, ?_⟩
    · rw [insert_no_growth a index v oracle hfree hrange hno, hm, Outcome.bind_ret, hw,
        Outcome.bind_ret]
    · simp only [slots]
      rw [wrap32_of_range _ (by omega) (by omega), ← hshape]
      congr 1
      omega
    · exact wrap32_of_range _ (by omega) (by omega)
  · rcases hgrow with hlt' | ⟨hret, hcap⟩
    · exact absurd hlt' hlt
    · cases oracle with
      | none => simp [arraylist_enlarge, jvm_realloc] at hret
      | some fill =>
        have hgrant : byte_size (wrap32 (a._alloced * 2)) ≤ PTRDIFF_MAX := by
          by_contra hno
          simp [arraylist_enlarge, jvm_realloc, hno] at hret
        simp only [arraylist_enlarge, jvm_realloc, if_pos hgrant] at hcap
        have hc1 : 1 ≤ a._alloced ∧ a._alloced * 2 ≤ 2147483647 := by
          unfold wrap32 at hcap; omega
        have hdouble : wrap32 (a._alloced * 2) = a._alloced * 2 :=
          wrap32_of_range _ (by omega) (by omega)
        have hfull : wrap32 (a.length + 1) > a._alloced := by
          rw [wrap32_of_range _ (by omega) (by omega)]; omega
        have hn : byte_size (a._alloced * 2) / sizeof_ArrayListValue = (a._alloced * 2).toNat :=
          byte_size_slots _ (by omega) (by omega)
        have hlen : (a.data.take (a._alloced * 2).toNat ++
            List.replicate ((a._alloced * 2).toNat - a.data.length) fill).length =
              (a._alloced * 2).toNat := by
          simp only [List.length_append, List.length_take, List.length_replicate]
          omega
        obtain ⟨m, w, hm, hw, hwl, hshape⟩ :=
          shift_and_write (a.data.take (a._alloced * 2).toNat ++
            List.replicate ((a._alloced * 2).toNat - a.data.length) fill) a.length index v h0 h1
            (by rw [hlen]; omega) (by omega)
        refine ⟨{ data := w, length := wrap32 (a.length + 1),
                  _alloced := wrap32 (a._alloced * 2), spinlock := false }, ?_, ?_, ?_⟩
        · rw [insert_growth a index v fill hfree hrange hfull hgrant, hdouble, hn, hm,
            Outcome.bind_ret, hw, Outcome.bind_ret]
        · have hkeep : (a.data.take (a._alloced * 2).toNat ++
              List.replicate ((a._alloced * 2).toNat - a.data.length) fill).take a.length.toNat =
                a.data.take a.length.toNat := by
            rw [List.take_append_of_le_length (by simp only [List.length_take]; omega),
              List.take_take]
            congr 1
            omega
          simp only [slots]
          rw [wrap32_of_range _ (by omega) (by omega), ← hkeep, ← hshape]
          congr 1
          omega
        · exact wrap32_of_range _ (by omega) (by omega)

/-- Witness of C1: inserting into the full two-slot container, growth succeeding. -/
theorem C1_insert_success_witness :
    WF sampleFull ∧
      ∃ a', arraylist_insert sampleFull 1 5 (some 0) = .ret (a', 1) ∧
        slots a' = (slots sampleFull).take 1 ++ 5 :: (slots sampleFull).drop 1 ∧
        a'.length = sampleFull.length + 1 :=
  ⟨by decide,
    C1_insert_success sampleFull 1 5 (some 0) (by decide) (by decide) (by decide) (by decide)
      (by decide)⟩

/-- C2: with the lock free at the call, an index below 0 or above `length`
makes `arraylist_insert` return 0 with `length`, `_alloced`, the heap block
and hence the occupied slots unchanged. -/
theorem C2_insert_out_of_range (a : ArrayList) (index : Int) (v : ArrayListValue)
    (oracle : Option ArrayListValue) (hfree : a.spinlock = false)
    (hbad : index < 0 ∨ index > a.length) :
    ∃ a', arraylist_insert a index v oracle = .ret (a', 0) ∧
      a'.length = a.length ∧ a'._alloced = a._alloced ∧ a'.data = a.data ∧
      slots a' = slots a := by
  refine ⟨{ a with spinlock := true }, ?_, rfl, rfl, rfl, rfl⟩
  unfold arraylist_insert
  rw [spin_lock_free a hfree, Outcome.bind_ret]
  dsimp only
  rw [if_pos hbad]

/-- Witness of C2: index 10 on the three-element container. -/
theorem C2_insert_out_of_range_witness :
    ((10 : Int) < 0 ∨ (10 : Int) > sample3.length) ∧
      ∃ a', arraylist_insert sample3 10 5 none = .ret (a', 0) ∧
        a'.length = sample3.length ∧ a'._alloced = sample3._alloced ∧
        a'.data = sample3.data ∧ slots a' = slots sample3 :=
  ⟨by decide, C2_insert_out_of_range sample3 10 5 none (by decide) (by decide)⟩

/-- C3: the guard is not free after `arraylist_insert` with an out-of-range
index.  On `[7, 8, 9]` with the guard free, `arraylist_insert(L, 10, 5)`
returns 0 with the guard still held, and the next guarded call on that
container never returns. -/
theorem C3_insert_out_of_range_keeps_guard :
    sample3.spinlock = false ∧
      arraylist_insert sample3 10 5 none = .ret ({ sample3 with spinlock := true }, 0) ∧
      arraylist_get_value { sample3 with spinlock := true } 0 = .deadlock := by
  decide

/-- C4: a failed growth step is not reported.  On the full container `[7, 8]`
with the reallocation returning null, `arraylist_insert(L, 1, 5)` leaves the
container unchanged and returns 1, not 0. -/
theorem C4_insert_growth_failure_returns_one :
    sampleFull.length = sampleFull._alloced ∧
      (arraylist_enlarge sampleFull none).2 = 0 ∧
      arraylist_insert sampleFull 1 5 none = .ret (sampleFull, 1) := by
  decide

/-! ## `arraylist_remove_range` -/

/-- A range inside the occupied slots is removed by `arraylist_remove_range`. -/
theorem remove_range_ok (a : ArrayList) (index count : Int)
    (hl : a.length ≤ (a.data.length : Int)) (hmax : a.length ≤ 2147483647)
    (h0 : 0 ≤ index) (hc : 0 ≤ count) (hsum : index + count ≤ a.length) :
    ∃ m, arraylist_remove_range a index count =
        .ret { a with data := m, length := a.length - count } ∧
      m.length = a.data.length ∧
      m.take (a.length - count).toNat =
        (slots a).take index.toNat ++ (slots a).drop (index + count).toNat := by
  have e1 : wrap32 (index + count) = index + count := wrap32_of_range _ (by omega) (by omega)
  have e2 : wrap32 (a.length - (index + count)) = a.length - (index + count) :=
    wrap32_of_range _ (by omega) (by omega)
  have e3 : wrap32 (a.length - count) = a.length - count :=
    wrap32_of_range _ (by omega) (by omega)
  have e4 : byte_size (a.length - (index + count)) / sizeof_ArrayListValue =
      (a.length - (index + count)).toNat := byte_size_slots _ (by omega) (by omega)
  have e5 : (a.length - (index + count)).toNat = a.length.toNat - (index.toNat + count.toNat) := by
    omega
  have e6 : (index + count).toNat = index.toNat + count.toNat := by omega
  have e7 : (a.length - count).toNat = a.length.toNat - count.toNat := by omega
  have hrange : ¬ (index < 0 ∨ count < 0 ∨ wrap32 (index + count) > a.length) := by
    rw [e1]; omega
  refine ⟨a.data.take index.toNat ++
      (a.data.drop (index.toNat + count.toNat)).take
        (a.length.toNat - (index.toNat + count.toNat)) ++
      a.data.drop (index.toNat + (a.length.toNat - (index.toNat + count.toNat))), ?_, ?_, ?_⟩
  · unfold arraylist_remove_range
    rw [if_neg hrange, e1, e2, e3]
    unfold memmove
    simp only [e4, e5, e6]
    rw [if_pos, Outcome.bind_ret]
    refine ⟨h0, by omega, ?_, ?_⟩ <;> omega
  · simp only [List.length_append, List.length_take, List.length_drop]
    omega
  · rw [e6, e7]
    exact remove_shape a.data index.toNat count.toNat a.length.toNat (by omega) (by omega)

/-- C5: for `0 <= index`, `0 <= count` and `index + count <= length` on a
well-formed container, `arraylist_remove_range` returns, the occupied slots
become the old slots before `index` followed by the old slots from
`index + count` on, `length` drops by `count` and `_alloced` is unchanged. -/
theorem C5_remove_range (a : ArrayList) (index count : Int) (hwf : WF a)
    (h0 : 0 ≤ index) (hc : 0 ≤ count) (hsum : index + count ≤ a.length) :
    ∃ a', arraylist_remove_range a index count = .ret a' ∧
      slots a' = (slots a).take index.toNat ++ (slots a).drop (index + count).toNat ∧
      a'.length = a.length - count ∧ a'._alloced = a._alloced := by
  obtain ⟨hl0, hl1, hcapmax, hblk⟩ := hwf
  unfold INT_MAX at hcapmax
  obtain ⟨m, hrun, -, hshape⟩ :=
    remove_range_ok a index count (by omega) (by omega) h0 hc hsum
  exact ⟨_, hrun, hshape, rfl, rfl⟩

/-- Witness of C5: removing two slots from index 1 of `[7, 8, 9]`. -/
theorem C5_remove_range_witness :
    WF sample3 ∧
      ∃ a', arraylist_remove_range sample3 1 2 = .ret a' ∧
        slots a' = (slots sample3).take 1 ++ (slots sample3).drop 3 ∧
        a'.length = sample3.length - 2 ∧ a'._alloced = sample3._alloced :=
  ⟨by decide, C5_remove_range sample3 1 2 (by decide) (by decide) (by decide) (by decide)⟩

/-! ## The scanning loop, `arraylist_remove` and `arraylist_index_of` -/

theorem load_nat (block : List ArrayListValue) (i : Nat) (x : ArrayListValue)
    (h : block[i]? = some x) : load block (i : Int) = .ret x := by
  unfold load
  rw [if_neg (by omega), Int.toNat_ofNat, h]

/-- The scanning loop over slots inside the block returns the lowest index in
`[i, i + trips)` whose slot matches, or -1 when no slot of that range matches. -/
theorem scan_loop_spec (equals : ArrayListValue → ArrayListValue → Int)
    (block : List ArrayListValue) (target : ArrayListValue) (trips i : Nat)
    (hb : i + trips ≤ block.length) :
    (∃ k x, i ≤ k ∧ k < i + trips ∧
        scan_loop equals block target trips i = .ret (k : Int) ∧
        block[k]? = some x ∧ equals x target ≠ 0 ∧
        ∀ j y, i ≤ j → j < k → block[j]? = some y → equals y target = 0) ∨
    (scan_loop equals block target trips i = .ret (-1) ∧
        ∀ j y, i ≤ j → j < i + trips → block[j]? = some y → equals y target = 0) := by
  induction trips generalizing i with
  | zero =>
    right
    refine ⟨rfl, ?_⟩
    intro j y h1 h2
    omega
  | succ n ih =>
    have hi : i < block.length := by omega
    have hx : block[i]? = some block[i] := List.getElem?_eq_getElem hi
    by_cases hm : equals block[i] target ≠ 0
    · left
      refine ⟨i, block[i], le_refl i, by omega, ?_, hx, hm, ?_⟩
      · unfold scan_loop
        rw [load_nat block i _ hx, Outcome.bind_ret, if_pos hm]
      · intro j y h1 h2
        omega
    · have hstep : scan_loop equals block target (n + 1) i =
          scan_loop equals block target n (i + 1) := by
        conv_lhs => unfold scan_loop
        rw [load_nat block i _ hx, Outcome.bind_ret, if_neg hm]
      have hz : equals block[i] target = 0 := not_not.mp hm
      rcases ih (i + 1) (by omega) with ⟨k, x, h1, h2, h3, h4, h5, h6⟩ | ⟨h3, h6⟩
      · left
        refine ⟨k, x, by omega, by omega, by rw [hstep]; exact h3, h4, h5, ?_⟩
        intro j y hj1 hj2 hy
        by_cases hji : j = i
        · subst hji
          rw [hx] at hy
          cases hy
          exact hz
        · exact h6 j y (by omega) hj2 hy
      · right
        refine ⟨by rw [hstep]; exact h3, ?_⟩
        intro j y hj1 hj2 hy
        by_cases hji : j = i
        · subst hji
          rw [hx] at hy
          cases hy
          exact hz
        · exact h6 j y (by omega) (by omega) hy

theorem slots_getElem? (a : ArrayList) (k : Nat) (hk : k < a.length.toNat) :
    (slots a)[k]? = a.data[k]? := by
  unfold slots
  rw [List.getElem?_take_of_lt hk]

/-- C7: on a well-formed container with the lock free, `arraylist_index_of`
returns the lowest index of an occupied slot on which `equals` is non-zero, or
-1 when `equals` is zero on every occupied slot; the container is unchanged. -/
theorem C7_index_of (a : ArrayList) (equals : ArrayListValue → ArrayListValue → Int)
    (target : ArrayListValue) (hfree : a.spinlock = false) (hwf : WF a) :
    (∃ (k : Nat) (x : ArrayListValue),
        arraylist_index_of a equals target = .ret (a, (k : Int)) ∧
        (slots a)[k]? = some x ∧ equals x target ≠ 0 ∧
        ∀ j y, j < k → (slots a)[j]? = some y → equals y target = 0) ∨
    (arraylist_index_of a equals target = .ret (a, -1) ∧
        ∀ y ∈ slots a, equals y target = 0) := by
  obtain ⟨hl0, hl1, hcapmax, hblk⟩ := hwf
  have hrun : ∀ r, scan_loop equals a.data target a.length.toNat 0 = .ret r →
      arraylist_index_of a equals target = .ret (a, r) := by
    intro r hr
    unfold arraylist_index_of
    rw [spin_lock_free a hfree, Outcome.bind_ret]
    dsimp only
    rw [hr, Outcome.bind_ret, unlock_lock a hfree]
  rcases scan_loop_spec equals a.data target a.length.toNat 0 (by omega) with
    ⟨k, x, -, h2, h3, h4, h5, h6⟩ | ⟨h3, h6⟩
  · left
    refine ⟨k, x, hrun _ h3, ?_, h5, ?_⟩
    · rw [slots_getElem? a k (by omega)]; exact h4
    · intro j y hj hy
      rw [slots_getElem? a j (by omega)] at hy
      exact h6 j y (Nat.zero_le j) hj hy
  · right
    refine ⟨hrun _ h3, ?_⟩
    intro y hy
    obtain ⟨j, hj, hjy⟩ := List.getElem_of_mem hy
    have hjl : j < a.length.toNat := by
      have : (slots a).length ≤ a.length.toNat := by
        unfold slots
        simp only [List.length_take]
        omega
      omega
    have hy2 : (slots a)[j]? = some y := by
      rw [List.getElem?_eq_getElem hj, hjy]
    rw [slots_getElem? a j hjl] at hy2
    exact h6 j y (Nat.zero_le j) (by omega) hy2

/-- Witness of C7: looking for 8 in `[7, 8, 9]` under identity comparison. -/
theorem C7_index_of_witness :
    WF sample3 ∧
    ((∃ (k : Nat) (x : ArrayListValue),
        arraylist_index_of sample3 arraylist_compare_ptr 8 = .ret (sample3, (k : Int)) ∧
        (slots sample3)[k]? = some x ∧ arraylist_compare_ptr x 8 ≠ 0 ∧
        ∀ j y, j < k → (slots sample3)[j]? = some y → arraylist_compare_ptr y 8 = 0) ∨
    (arraylist_index_of sample3 arraylist_compare_ptr 8 = .ret (sample3, -1) ∧
        ∀ y ∈ slots sample3, arraylist_compare_ptr y 8 = 0)) :=
  ⟨by decide, C7_index_of sample3 arraylist_compare_ptr 8 (by decide) (by decide)⟩

theorem compare_ptr_ne_zero (x v : ArrayListValue) :
    arraylist_compare_ptr x v ≠ 0 ↔ x = v := by
  unfold arraylist_compare_ptr
  by_cases h : x = v <;> simp [h]

/-- C6: on a well-formed container with the lock free, `arraylist_remove`
returns the lowest index of an occupied slot identical to the value and the
occupied slots lose exactly that slot (`length` drops by 1); when no occupied
slot is identical to the value it returns -1 and the container is unchanged. -/
theorem C6_remove (a : ArrayList) (v : ArrayListValue) (hfree : a.spinlock = false)
    (hwf : WF a) :
    (∃ (k : Nat) (a' : ArrayList),
        arraylist_remove a v = .ret (a', (k : Int)) ∧
        (slots a)[k]? = some v ∧ (∀ j, j < k → (slots a)[j]? ≠ some v) ∧
        slots a' = (slots a).eraseIdx k ∧ a'.length = a.length - 1) ∨
    (arraylist_remove a v = .ret (a, -1) ∧ v ∉ slots a) := by
  obtain ⟨hl0, hl1, hcapmax, hblk⟩ := hwf
  unfold INT_MAX at hcapmax
  rcases scan_loop_spec arraylist_compare_ptr a.data v a.length.toNat 0 (by omega) with
    ⟨k, x, -, h2, h3, h4, h5, h6⟩ | ⟨h3, h6⟩
  · left
    have hxv : x = v := (compare_ptr_ne_zero x v).mp h5
    subst hxv
    obtain ⟨m, hrm, -, hshape⟩ :=
      remove_range_ok { a with spinlock := true } (k : Int) 1
        (by simp only; omega) (by simp only; omega) (by omega) (by omega)
        (by simp only; omega)
    refine ⟨k, { data := m, length := a.length - 1, _alloced := a._alloced,
                 spinlock := false }, ?_, ?_, ?_, ?_, rfl⟩
    · unfold arraylist_remove
      rw [spin_lock_free a hfree, Outcome.bind_ret]
      dsimp only
      rw [h3, Outcome.bind_ret, if_pos (by omega), hrm, Outcome.bind_ret]
      rfl
    · rw [slots_getElem? a k (by omega)]; exact h4
    · intro j hj hjv
      rw [slots_getElem? a j (by omega)] at hjv
      have hzero := h6 j x (Nat.zero_le j) hj hjv
      exact (compare_ptr_ne_zero x x).mpr rfl hzero
    · have hs : slots { a with spinlock := true } = slots a := rfl
      rw [hs] at hshape
      rw [List.eraseIdx_eq_take_drop_succ]
      have e : ((k : Int) + 1).toNat = k + 1 := by omega
      rw [e, Int.toNat_ofNat] at hshape
      exact hshape
  · right
    refine ⟨?_, ?_⟩
    · unfold arraylist_remove
      rw [spin_lock_free a hfree, Outcome.bind_ret]
      dsimp only
      rw [h3, Outcome.bind_ret, if_neg (by omega), Outcome.bind_ret, unlock_lock a hfree]
    · intro hmem
      obtain ⟨j, hj, hjv⟩ := List.getElem_of_mem hmem
      have hjl : j < a.length.toNat := by
        have : (slots a).length ≤ a.length.toNat := by
          unfold slots
          simp only [List.length_take]
          omega
        omega
      have hv2 : (slots a)[j]? = some v := by
        rw [List.getElem?_eq_getElem hj, hjv]
      rw [slots_getElem? a j hjl] at hv2
      exact (compare_ptr_ne_zero v v).mpr rfl (h6 j v (Nat.zero_le j) (by omega) hv2)

/-- Witness of C6: removing 8 from `[7, 8, 9]`. -/
theorem C6_remove_witness :
    WF sample3 ∧
    ((∃ (k : Nat) (a' : ArrayList),
        arraylist_remove sample3 8 = .ret (a', (k : Int)) ∧
        (slots sample3)[k]? = some 8 ∧ (∀ j, j < k → (slots sample3)[j]? ≠ some 8) ∧
        slots a' = (slots sample3).eraseIdx k ∧ a'.length = sample3.length - 1) ∨
    (arraylist_remove sample3 8 = .ret (sample3, -1) ∧ 8 ∉ slots sample3)) :=
  ⟨by decide, C6_remove sample3 8 (by decide) (by decide)⟩

/-! ## `arraylist_get_value`, `arraylist_pop_front`, `arraylist_pop_back` -/

/-- C8: on a well-formed container with the lock free, `arraylist_get_value`
returns the occupied slot at `index` when `0 <= index < length` and NULL
otherwise; the container is unchanged. -/
theorem C8_get_value (a : ArrayList) (index : Int) (hfree : a.spinlock = false)
    (hwf : WF a) :
    (0 ≤ index ∧ index < a.length →
      ∃ v, (slots a)[index.toNat]? = some v ∧ arraylist_get_value a index = .ret (a, v)) ∧
    (¬ (0 ≤ index ∧ index < a.length) → arraylist_get_value a index = .ret (a, NULL)) := by
  obtain ⟨hl0, hl1, hcapmax, hblk⟩ := hwf
  constructor
  · intro hin
    have hi : index.toNat < a.data.length := by omega
    have hx : a.data[index.toNat]? = some a.data[index.toNat] := List.getElem?_eq_getElem hi
    refine ⟨a.data[index.toNat], ?_, ?_⟩
    · rw [slots_getElem? a index.toNat (by omega)]; exact hx
    · unfold arraylist_get_value
      rw [spin_lock_free a hfree, Outcome.bind_ret]
      dsimp only
      rw [if_pos (by omega)]
      have hload : load a.data index = .ret a.data[index.toNat] := by
        have := load_nat a.data index.toNat _ hx
        rwa [Int.toNat_of_nonneg hin.1] at this
      rw [hload, Outcome.bind_ret, unlock_lock a hfree]
  · intro hout
    unfold arraylist_get_value
    rw [spin_lock_free a hfree, Outcome.bind_ret]
    dsimp only
    rw [if_neg (by omega), Outcome.bind_ret, unlock_lock a hfree]

/-- Witness of C8: reading index 2 of `[7, 8, 9]`. -/
theorem C8_get_value_witness :
    WF sample3 ∧
    ((0 ≤ (2 : Int) ∧ (2 : Int) < sample3.length →
      ∃ v, (slots sample3)[(2 : Int).toNat]? = some v ∧
        arraylist_get_value sample3 2 = .ret (sample3, v)) ∧
    (¬ (0 ≤ (2 : Int) ∧ (2 : Int) < sample3.length) →
      arraylist_get_value sample3 2 = .ret (sample3, NULL))) :=
  ⟨by decide, C8_get_value sample3 2 (by decide) (by decide)⟩

/-- C9: on a well-formed container with the lock free, `arraylist_pop_front`
on a non-empty list returns slot 0 and leaves the remaining slots in order
with `length` one less; on an empty list it returns NULL and the container,
of length 0, is unchanged. -/
theorem C9_pop_front (a : ArrayList) (hfree : a.spinlock = false) (hwf : WF a) :
    (0 < a.length →
      ∃ a' v, arraylist_pop_front a = .ret (a', v) ∧ (slots a)[0]? = some v ∧
        slots a = v :: slots a' ∧ slots a' = (slots a).drop 1 ∧
        a'.length = a.length - 1) ∧
    (a.length = 0 → arraylist_pop_front a = .ret (a, NULL)) := by
  obtain ⟨hl0, hl1, hcapmax, hblk⟩ := hwf
  unfold INT_MAX at hcapmax
  constructor
  · intro hpos
    have hi : 0 < a.data.length := by omega
    have hx : a.data[0]? = some a.data[0] := List.getElem?_eq_getElem hi
    obtain ⟨m, hrm, -, hshape⟩ :=
      remove_range_ok { a with spinlock := true } 0 1
        (by simp only; omega) (by simp only; omega) (by omega) (by omega)
        (by simp only; omega)
    have hs : slots { a with spinlock := true } = slots a := rfl
    rw [hs] at hshape
    simp only [Int.toNat_zero, List.take_zero, List.nil_append] at hshape
    have hdrop : m.take (a.length - 1).toNat = (slots a).drop 1 := hshape
    have hhead : (slots a)[0]? = some a.data[0] := by
      rw [slots_getElem? a 0 (by omega)]; exact hx
    refine ⟨{ data := m, length := a.length - 1, _alloced := a._alloced,
              spinlock := false }, a.data[0], ?_, hhead, ?_, hdrop, rfl⟩
    · unfold arraylist_pop_front
      rw [spin_lock_free a hfree, Outcome.bind_ret]
      dsimp only
      rw [if_pos hpos]
      have hload : load a.data 0 = .ret a.data[0] := load_nat a.data 0 _ hx
      rw [hload, Outcome.bind_ret, hrm, Outcome.bind_ret]
      rfl
    · show slots a = a.data[0] :: m.take (a.length - 1).toNat
      rw [hdrop]
      cases hsl : slots a with
      | nil => rw [hsl] at hhead; simp at hhead
      | cons y t =>
        rw [hsl] at hhead
        simp only [List.getElem?_cons_zero, Option.some.injEq] at hhead
        rw [hhead]
        rfl
  · intro hz
    unfold arraylist_pop_front
    rw [spin_lock_free a hfree, Outcome.bind_ret]
    dsimp only
    rw [if_neg (by omega), unlock_lock a hfree]

/-- Witness of C9: popping the front of `[7, 8, 9]`. -/
theorem C9_pop_front_witness :
    WF sample3 ∧
    ((0 < sample3.length →
      ∃ a' v, arraylist_pop_front sample3 = .ret (a', v) ∧ (slots sample3)[0]? = some v ∧
        slots sample3 = v :: slots a' ∧ slots a' = (slots sample3).drop 1 ∧
        a'.length = sample3.length - 1) ∧
    (sample3.length = 0 → arraylist_pop_front sample3 = .ret (sample3, NULL))) :=
  ⟨by decide, C9_pop_front sample3 (by decide) (by decide)⟩

/-- C10: on a well-formed container with the lock free, `arraylist_pop_back`
on a non-empty list returns slot `length - 1` and leaves the slots before it
where they were (the heap block is untouched) with `length` one less; on an
empty list it returns NULL and the container, of length 0, is unchanged. -/
theorem C10_pop_back (a : ArrayList) (hfree : a.spinlock = false) (hwf : WF a) :
    (0 < a.length →
      ∃ a' v, arraylist_pop_back a = .ret (a', v) ∧
        (slots a)[(a.length - 1).toNat]? = some v ∧
        slots a = slots a' ++ [v] ∧ a'.length = a.length - 1 ∧ a'.data = a.data) ∧
    (a.length = 0 → arraylist_pop_back a = .ret (a, NULL)) := by
  obtain ⟨hl0, hl1, hcapmax, hblk⟩ := hwf
  unfold INT_MAX at hcapmax
  constructor
  · intro hpos
    have e1 : wrap32 (a.length - 1) = a.length - 1 := wrap32_of_range _ (by omega) (by omega)
    have hi : (a.length - 1).toNat < a.data.length := by omega
    have hx : a.data[(a.length - 1).toNat]? = some a.data[(a.length - 1).toNat] :=
      List.getElem?_eq_getElem hi
    have hload : load a.data (a.length - 1) = .ret a.data[(a.length - 1).toNat] := by
      have := load_nat a.data (a.length - 1).toNat _ hx
      rwa [Int.toNat_of_nonneg (by omega)] at this
    refine ⟨{ data := a.data, length := a.length - 1, _alloced := a._alloced,
              spinlock := false }, a.data[(a.length - 1).toNat], ?_, ?_, ?_, rfl, rfl⟩
    · unfold arraylist_pop_back
      rw [spin_lock_free a hfree, Outcome.bind_ret]
      dsimp only
      rw [if_pos hpos, e1, hload, Outcome.bind_ret]
      rfl
    · rw [slots_getElem? a _ (by omega)]; exact hx
    · unfold slots
      dsimp only
      have e2 : a.length.toNat = (a.length - 1).toNat + 1 := by omega
      rw [e2, List.take_succ, hx]
      rfl
  · intro hz
    unfold arraylist_pop_back
    rw [spin_lock_free a hfree, Outcome.bind_ret]
    dsimp only
    rw [if_neg (by omega), unlock_lock a hfree]

/-- Witness of C10: popping the back of `[7, 8, 9]`. -/
theorem C10_pop_back_witness :
    WF sample3 ∧
    ((0 < sample3.length →
      ∃ a' v, arraylist_pop_back sample3 = .ret (a', v) ∧
        (slots sample3)[(sample3.length - 1).toNat]? = some v ∧
        slots sample3 = slots a' ++ [v] ∧ a'.length = sample3.length - 1 ∧
        a'.data = sample3.data) ∧
    (sample3.length = 0 → arraylist_pop_back sample3 = .ret (sample3, NULL))) :=
  ⟨by decide, C10_pop_back sample3 (by decide) (by decide)⟩

/-! ## Returning calls taken apart -/

theorem Outcome.bind_eq_ret {α β : Type} {o : Outcome α} {f : α → Outcome β} {y : β}
    (h : o.bind f = .ret y) : ∃ x, o = .ret x ∧ f x = .ret y := by
  cases o with
  | ret x => exact ⟨x, rfl, h⟩
  | deadlock => simp [Outcome.bind] at h
  | fault => simp [Outcome.bind] at h

theorem spin_lock_ret {a b : ArrayList} (h : pthread_spin_lock a = .ret b) :
    a.spinlock = false ∧ b = { a with spinlock := true } := by
  unfold pthread_spin_lock at h
  cases hs : a.spinlock with
  | true => simp [hs] at h
  | false =>
    simp only [hs, Bool.false_eq_true, if_false, Outcome.ret.injEq] at h
    exact ⟨rfl, h.symm⟩

theorem memmove_ret {block m : List ArrayListValue} {dst src : Int} {bytes : Nat}
    (h : memmove block dst src bytes = .ret m) :
    0 ≤ dst ∧ 0 ≤ src ∧
      dst + ((bytes / sizeof_ArrayListValue : Nat) : Int) ≤ (block.length : Int) ∧
      src + ((bytes / sizeof_ArrayListValue : Nat) : Int) ≤ (block.length : Int) ∧
      m.length = block.length := by
  unfold memmove at h
  dsimp only at h
  split_ifs at h with hc
  obtain ⟨h1, h2, h3, h4⟩ := hc
  cases h
  refine ⟨h1, h2, h3, h4, ?_⟩
  simp only [List.length_append, List.length_take, List.length_drop]
  generalize bytes / sizeof_ArrayListValue = n at h3 h4 ⊢
  omega

theorem load_ret {block : List ArrayListValue} {i : Int} {v : ArrayListValue}
    (h : load block i = .ret v) :
    0 ≤ i ∧ i < (block.length : Int) ∧ block[i.toNat]? = some v := by
  unfold load at h
  split_ifs at h with hc
  cases hg : block[i.toNat]? with
  | none => simp [hg] at h
  | some x =>
    simp only [hg, Outcome.ret.injEq] at h
    subst h
    have hlt : i.toNat < block.length := (List.getElem?_eq_some_iff.mp hg).1
    exact ⟨by omega, by omega, rfl⟩

/-- Whenever `arraylist_remove_range` returns, `_alloced` and the lock are as
before. -/
theorem remove_range_fields {a a' : ArrayList} {index count : Int}
    (h : arraylist_remove_range a index count = .ret a') :
    a'._alloced = a._alloced ∧ a'.spinlock = a.spinlock := by
  unfold arraylist_remove_range at h
  split_ifs at h with hc
  · cases h
    exact ⟨rfl, rfl⟩
  · obtain ⟨m, -, hm⟩ := Outcome.bind_eq_ret h
    cases hm
    exact ⟨rfl, rfl⟩

/-- Whenever `arraylist_remove_range` returns on a well-formed container, the
container is well-formed afterwards. -/
theorem remove_range_WF {a a' : ArrayList} {index count : Int} (hwf : WF a)
    (h : arraylist_remove_range a index count = .ret a') : WF a' := by
  obtain ⟨hl0, hl1, hcapmax, hblk⟩ := hwf
  unfold INT_MAX at hcapmax
  unfold arraylist_remove_range at h
  split_ifs at h with hc
  · cases h
    exact ⟨hl0, hl1, hcapmax, hblk⟩
  · obtain ⟨m, hmv, hm⟩ := Outcome.bind_eq_ret h
    cases hm
    obtain ⟨h1, h2, h3, h4, h5⟩ := memmove_ret hmv
    have hs : wrap32 (index + count) ≤ a.length := by omega
    have e2 : wrap32 (a.length - wrap32 (index + count)) =
        a.length - wrap32 (index + count) := wrap32_of_range _ (by omega) (by omega)
    rw [e2, byte_size_slots _ (by omega) (by omega)] at h3 h4
    have hcount : 0 ≤ count := by omega
    refine ⟨?_, ?_, hcapmax, by rw [h5]; exact hblk⟩
    · show 0 ≤ wrap32 (a.length - count)
      unfold wrap32 at h2 h3 hs ⊢
      omega
    · show wrap32 (a.length - count) ≤ a._alloced
      unfold wrap32 at h2 h3 hs ⊢
      omega

/-- Without wraparound of `index + count`, `arraylist_remove_range` rejects
every range that does not lie inside the occupied slots and returns the
container as it was. -/
theorem remove_range_rejects (a : ArrayList) (index count : Int)
    (hsum : index + count ≤ 2147483647) (hlow : -2147483648 ≤ index + count)
    (hbad : index < 0 ∨ count < 0 ∨ index + count > a.length) :
    arraylist_remove_range a index count = .ret a := by
  unfold arraylist_remove_range
  rw [if_pos]
  rw [wrap32_of_range _ hlow hsum]
  exact hbad

/-- C19: the range check of `arraylist_remove_range` misses a sum that wraps.
On `[7, 8, 9]` the call with index `2147483647` and count 1 has a true sum
above `length`, yet the wrapped sum passes the check of line 173 and the
`memmove` of line 179 leaves the heap block; `arraylist_remove_at` with that
index does the same. -/
theorem C19_remove_range_wrapped_sum :
    (2147483647 : Int) + 1 > sample3.length ∧
      wrap32 (2147483647 + 1) = -2147483648 ∧
      arraylist_remove_range sample3 2147483647 1 = .fault ∧
      arraylist_remove_at sample3 2147483647 = .fault := by
  decide

/-- The heap block after a granted `jvm_realloc` in `arraylist_enlarge`. -/
theorem enlarge_granted (a : ArrayList) (fill : ArrayListValue)
    (hgrant : byte_size (wrap32 (a._alloced * 2)) ≤ PTRDIFF_MAX) :
    arraylist_enlarge a (some fill) =
      ({ a with
          data := a.data.take (byte_size (wrap32 (a._alloced * 2)) / sizeof_ArrayListValue) ++
            List.replicate
              (byte_size (wrap32 (a._alloced * 2)) / sizeof_ArrayListValue - a.data.length) fill,
          _alloced := wrap32 (a._alloced * 2) }, 1) := by
  simp only [arraylist_enlarge, jvm_realloc, if_pos hgrant]

/-- A null `jvm_realloc` in `arraylist_enlarge`: the container is returned as
it was, with result 0. -/
theorem enlarge_refused (a : ArrayList) (oracle : Option ArrayListValue)
    (hnull : jvm_realloc a.data (byte_size (wrap32 (a._alloced * 2))) oracle = none) :
    arraylist_enlarge a oracle = (a, 0) := by
  simp only [arraylist_enlarge, hnull]

/-- The ways in which `arraylist_insert` returns: rejected index, insertion
without growth, skipped insertion after a failed growth, insertion after a
successful growth. -/
theorem insert_ret_cases {a a' : ArrayList} {index r : Int} {v : ArrayListValue}
    {oracle : Option ArrayListValue}
    (h : arraylist_insert a index v oracle = .ret (a', r)) :
    a.spinlock = false ∧
    (((index < 0 ∨ index > a.length) ∧ a' = { a with spinlock := true } ∧ r = 0) ∨
     (¬ (index < 0 ∨ index > a.length) ∧ ¬ (wrap32 (a.length + 1) > a._alloced) ∧
        ∃ m w, memmove a.data (wrap32 (index + 1)) index
            (byte_size (wrap32 (a.length - index))) = .ret m ∧
          store m index v = .ret w ∧
          a' = { data := w, length := wrap32 (a.length + 1), _alloced := a._alloced,
                 spinlock := false } ∧ r = 1) ∨
     (¬ (index < 0 ∨ index > a.length) ∧ wrap32 (a.length + 1) > a._alloced ∧
        a' = a ∧ r = 1) ∨
     (¬ (index < 0 ∨ index > a.length) ∧ wrap32 (a.length + 1) > a._alloced ∧
        byte_size (wrap32 (a._alloced * 2)) ≤ PTRDIFF_MAX ∧
        ∃ fill m w, oracle = some fill ∧
          memmove
            (a.data.take (byte_size (wrap32 (a._alloced * 2)) / sizeof_ArrayListValue) ++
              List.replicate
                (byte_size (wrap32 (a._alloced * 2)) / sizeof_ArrayListValue - a.data.length)
                fill)
            (wrap32 (index + 1)) index (byte_size (wrap32 (a.length - index))) = .ret m ∧
          store m index v = .ret w ∧
          a' = { data := w, length := wrap32 (a.length + 1),
                 _alloced := wrap32 (a._alloced * 2), spinlock := false } ∧ r = 1)) := by
  have hfree : a.spinlock = false := by
    unfold arraylist_insert at h
    obtain ⟨b, hb, -⟩ := Outcome.bind_eq_ret h
    exact (spin_lock_ret hb).1
  refine ⟨hfree, ?_⟩
  by_cases hrange : index < 0 ∨ index > a.length
  · left
    unfold arraylist_insert at h
    rw [spin_lock_free a hfree, Outcome.bind_ret] at h
    dsimp only at h
    rw [if_pos hrange] at h
    cases h
    exact ⟨hrange, rfl, rfl⟩
  · right
    by_cases hfull : wrap32 (a.length + 1) > a._alloced
    · right
      cases hre : jvm_realloc a.data (byte_size (wrap32 (a._alloced * 2))) oracle with
      | none =>
        left
        rw [insert_growth_failed a index v oracle hfree hrange hfull hre] at h
        cases h
        exact ⟨hrange, hfull, rfl, rfl⟩
      | some d =>
        right
        obtain ⟨hgrant, fill, hor, -⟩ := realloc_some hre
        subst hor
        rw [insert_growth a index v fill hfree hrange hfull hgrant] at h
        obtain ⟨m, hm, h⟩ := Outcome.bind_eq_ret h
        obtain ⟨w, hw, h⟩ := Outcome.bind_eq_ret h
        cases h
        exact ⟨hrange, hfull, hgrant, fill, m, w, rfl, hm, hw, rfl, rfl⟩
    · left
      rw [insert_no_growth a index v oracle hfree hrange hfull] at h
      obtain ⟨m, hm, h⟩ := Outcome.bind_eq_ret h
      obtain ⟨w, hw, h⟩ := Outcome.bind_eq_ret h
      cases h
      exact ⟨hrange, hfull, m, w, hm, hw, rfl, rfl⟩

theorem WF_lock {a : ArrayList} (hwf : WF a) : WF { a with spinlock := true } := hwf

theorem WF_unlock {a : ArrayList} (hwf : WF a) : WF (pthread_spin_unlock a) := hwf

theorem remove_ret {a a' : ArrayList} {v : ArrayListValue} {r : Int}
    (h : arraylist_remove a v = .ret (a', r)) :
    a'._alloced = a._alloced ∧ (WF a → WF a') := by
  unfold arraylist_remove at h
  obtain ⟨b, hb, h⟩ := Outcome.bind_eq_ret h
  obtain ⟨-, rfl⟩ := spin_lock_ret hb
  obtain ⟨index, -, h⟩ := Outcome.bind_eq_ret h
  obtain ⟨a1, h1, h⟩ := Outcome.bind_eq_ret h
  cases h
  split_ifs at h1 with hi
  · exact ⟨(remove_range_fields h1).1, fun hwf => WF_unlock (remove_range_WF (WF_lock hwf) h1)⟩
  · cases h1
    exact ⟨rfl, fun hwf => hwf⟩

theorem remove_at_ret {a a' : ArrayList} {index : Int}
    (h : arraylist_remove_at a index = .ret a') :
    a'._alloced = a._alloced ∧ (WF a → WF a') := by
  unfold arraylist_remove_at at h
  obtain ⟨b, hb, h⟩ := Outcome.bind_eq_ret h
  obtain ⟨-, rfl⟩ := spin_lock_ret hb
  obtain ⟨a1, h1, h⟩ := Outcome.bind_eq_ret h
  cases h
  exact ⟨(remove_range_fields h1).1, fun hwf => WF_unlock (remove_range_WF (WF_lock hwf) h1)⟩

theorem pop_front_ret {a a' : ArrayList} {v : ArrayListValue}
    (h : arraylist_pop_front a = .ret (a', v)) :
    a'._alloced = a._alloced ∧ (WF a → WF a') := by
  unfold arraylist_pop_front at h
  obtain ⟨b, hb, h⟩ := Outcome.bind_eq_ret h
  obtain ⟨-, rfl⟩ := spin_lock_ret hb
  dsimp only at h
  split_ifs at h with hpos
  · obtain ⟨x, -, h⟩ := Outcome.bind_eq_ret h
    obtain ⟨a1, h1, h⟩ := Outcome.bind_eq_ret h
    cases h
    exact ⟨(remove_range_fields h1).1, fun hwf => WF_unlock (remove_range_WF (WF_lock hwf) h1)⟩
  · cases h
    exact ⟨rfl, fun hwf => hwf⟩

theorem pop_back_ret {a a' : ArrayList} {v : ArrayListValue}
    (h : arraylist_pop_back a = .ret (a', v)) :
    a'._alloced = a._alloced ∧ (WF a → WF a') := by
  unfold arraylist_pop_back at h
  obtain ⟨b, hb, h⟩ := Outcome.bind_eq_ret h
  obtain ⟨-, rfl⟩ := spin_lock_ret hb
  dsimp only at h
  split_ifs at h with hpos
  · obtain ⟨x, -, h⟩ := Outcome.bind_eq_ret h
    cases h
    refine ⟨rfl, fun hwf => ?_⟩
    obtain ⟨hl0, hl1, hcapmax, hblk⟩ := hwf
    unfold INT_MAX at hcapmax
    have e : wrap32 (a.length - 1) = a.length - 1 := wrap32_of_range _ (by omega) (by omega)
    refine ⟨?_, ?_, hcapmax, hblk⟩
    · show 0 ≤ wrap32 (a.length - 1)
      rw [e]; omega
    · show wrap32 (a.length - 1) ≤ a._alloced
      rw [e]; omega
  · cases h
    exact ⟨rfl, fun hwf => hwf⟩

theorem sort_ret_fields {a a' : ArrayList}
    {compare_func : ArrayListValue → ArrayListValue → Int}
    (h : arraylist_sort a compare_func = some (.ret a')) :
    a.spinlock = false ∧ a'._alloced = a._alloced ∧ a'.length = a.length ∧
      a'.spinlock = false ∧
      arraylist_sort_internal compare_func a.length.toNat a.data a.length =
        some (.ret a'.data) := by
  unfold arraylist_sort at h
  cases hl : pthread_spin_lock a with
  | deadlock => simp [hl] at h
  | fault => simp [hl] at h
  | ret b =>
    obtain ⟨hfree, rfl⟩ := spin_lock_ret hl
    rw [hl] at h
    dsimp only at h
    cases hs : arraylist_sort_internal compare_func a.length.toNat a.data a.length with
    | none => simp [hs] at h
    | some o =>
      cases o with
      | deadlock => simp [hs] at h
      | fault => simp [hs] at h
      | ret d =>
        simp only [hs, Option.some.injEq, Outcome.ret.injEq] at h
        subst h
        exact ⟨hfree, rfl, rfl, rfl, rfl⟩

/-! ## `arraylist_enlarge` and the capacity -/

theorem byte_size_double (c : Int) (h0 : 1 ≤ c) (h1 : c ≤ 2147483647) :
    c.toNat + 1 ≤ byte_size (wrap32 (c * 2)) / sizeof_ArrayListValue := by
  unfold byte_size sizeof_ArrayListValue SIZE_MOD wrap32
  simp only [Nat.cast_ofNat]
  omega

theorem sampleHugeFull_WF : WF sampleHugeFull := by
  refine ⟨by decide, by decide, by decide, ?_⟩
  show ((List.replicate 1073741824 NULL).length : Int) = 1073741824
  rw [List.length_replicate]
  rfl

/-- C17: for every container, when the reallocation in `arraylist_enlarge`
succeeds the call returns 1 with the reallocated block, `_alloced` is exactly
twice its old value, the block has that many slots, and `length`, the lock and
the occupied slots `[0, length)` are unchanged; when the reallocation fails the
call returns 0 and the container (heap block, `_alloced`, `length`, contents) is
returned unchanged.  The success half is for a well-formed container, the
failure half for any container. -/
theorem C17_enlarge (a : ArrayList) (oracle : Option ArrayListValue) :
    (WF a → ∀ d, jvm_realloc a.data (byte_size (wrap32 (a._alloced * 2))) oracle = some d →
      ∃ a', arraylist_enlarge a oracle = (a', 1) ∧ a'.data = d ∧
        a'._alloced = 2 * a._alloced ∧
        (a'.data.length : Int) = a'._alloced ∧ a'.length = a.length ∧
        a'.spinlock = a.spinlock ∧ slots a' = slots a) ∧
    (jvm_realloc a.data (byte_size (wrap32 (a._alloced * 2))) oracle = none →
      arraylist_enlarge a oracle = (a, 0)) := by
  constructor
  · intro hwf d hd
    obtain ⟨hl0, hl1, hcapmax, hblk⟩ := hwf
    unfold INT_MAX at hcapmax
    obtain ⟨hgrant, fill, hor, hdd⟩ := realloc_some hd
    subst hor
    have hfit := granted_fits a._alloced (by omega) hcapmax hgrant
    have hdouble : wrap32 (a._alloced * 2) = a._alloced * 2 :=
      wrap32_of_range _ (by omega) (by omega)
    have hn : byte_size (a._alloced * 2) / sizeof_ArrayListValue = (a._alloced * 2).toNat :=
      byte_size_slots _ (by omega) (by omega)
    refine ⟨_, enlarge_granted a fill hgrant, hdd.symm, ?_, ?_, rfl, rfl, ?_⟩
    · show wrap32 (a._alloced * 2) = 2 * a._alloced
      rw [hdouble]; ring
    · show ((a.data.take (byte_size (wrap32 (a._alloced * 2)) / sizeof_ArrayListValue) ++
          List.replicate
            (byte_size (wrap32 (a._alloced * 2)) / sizeof_ArrayListValue - a.data.length)
            fill).length : Int) = wrap32 (a._alloced * 2)
      rw [hdouble, hn]
      simp only [List.length_append, List.length_take, List.length_replicate]
      omega
    · show (a.data.take (byte_size (wrap32 (a._alloced * 2)) / sizeof_ArrayListValue) ++
          List.replicate
            (byte_size (wrap32 (a._alloced * 2)) / sizeof_ArrayListValue - a.data.length)
            fill).take a.length.toNat = a.data.take a.length.toNat
      rw [hdouble, hn, List.take_append_of_le_length (by simp only [List.length_take]; omega),
        List.take_take]
      congr 1
      omega
  · intro hnull
    exact enlarge_refused a oracle hnull

/-- Witness of C17: growing the full two-slot container with a successful
reallocation, and the full container of capacity `2^30`, whose doubled capacity
wraps to `-2^31`: that request is refused and the container stays as it was. -/
theorem C17_enlarge_witness :
    (WF sampleFull ∧
      jvm_realloc sampleFull.data (byte_size (wrap32 (sampleFull._alloced * 2))) (some 0) =
        some [7, 8, 0, 0] ∧
      ∃ a', arraylist_enlarge sampleFull (some 0) = (a', 1) ∧ a'.data = [7, 8, 0, 0] ∧
        a'._alloced = 2 * sampleFull._alloced ∧
        (a'.data.length : Int) = a'._alloced ∧ a'.length = sampleFull.length ∧
        a'.spinlock = sampleFull.spinlock ∧ slots a' = slots sampleFull) ∧
    (jvm_realloc sampleHugeFull.data (byte_size (wrap32 (sampleHugeFull._alloced * 2)))
        (some 0) = none ∧
      arraylist_enlarge sampleHugeFull (some 0) = (sampleHugeFull, 0)) :=
  ⟨⟨by decide, by decide,
      (C17_enlarge sampleFull (some 0)).1 (by decide) [7, 8, 0, 0] (by decide)⟩,
    ⟨by decide, (C17_enlarge sampleHugeFull (some 0)).2 (by decide)⟩⟩

/-- C18: for every container, with the capacity a 32-bit signed `int`, the
capacity after `arraylist_insert` or `arraylist_enlarge` is greater than or
equal to the capacity before; `arraylist_remove_range`, `arraylist_remove`,
`arraylist_remove_at`, `arraylist_pop_front`, `arraylist_pop_back`,
`arraylist_clear` and `arraylist_sort` leave the capacity exactly as it was. -/
theorem C18_capacity_never_shrinks (a : ArrayList) :
    (∀ index v oracle a' r, INT_MIN ≤ a._alloced → a._alloced ≤ INT_MAX →
      arraylist_insert a index v oracle = .ret (a', r) → a._alloced ≤ a'._alloced) ∧
    (∀ oracle, INT_MIN ≤ a._alloced → a._alloced ≤ INT_MAX →
      a._alloced ≤ (arraylist_enlarge a oracle).1._alloced) ∧
    (∀ index count a', arraylist_remove_range a index count = .ret a' →
      a'._alloced = a._alloced) ∧
    (∀ v a' r, arraylist_remove a v = .ret (a', r) → a'._alloced = a._alloced) ∧
    (∀ index a', arraylist_remove_at a index = .ret a' → a'._alloced = a._alloced) ∧
    (∀ a' v, arraylist_pop_front a = .ret (a', v) → a'._alloced = a._alloced) ∧
    (∀ a' v, arraylist_pop_back a = .ret (a', v) → a'._alloced = a._alloced) ∧
    (arraylist_clear a)._alloced = a._alloced ∧
    (∀ compare_func a', arraylist_sort a compare_func = some (.ret a') →
      a'._alloced = a._alloced) := by
  refine ⟨?_, ?_, ?_, ?_, ?_, ?_, ?_, rfl, ?_⟩
  · intro index v oracle a' r hmin hmax h
    unfold INT_MIN at hmin
    unfold INT_MAX at hmax
    obtain ⟨-, hcase⟩ := insert_ret_cases h
    rcases hcase with ⟨-, rfl, -⟩ | ⟨-, -, m, w, -, -, rfl, -⟩ | ⟨-, -, rfl, -⟩ |
      ⟨-, -, hgrant, fill, m, w, -, -, -, rfl, -⟩
    · exact le_refl _
    · exact le_refl _
    · exact le_refl _
    · exact granted_not_below a._alloced hmin hmax hgrant
  · intro oracle hmin hmax
    unfold INT_MIN at hmin
    unfold INT_MAX at hmax
    cases hre : jvm_realloc a.data (byte_size (wrap32 (a._alloced * 2))) oracle with
    | none =>
      rw [enlarge_refused a oracle hre]
    | some d =>
      obtain ⟨hgrant, fill, hor, -⟩ := realloc_some hre
      subst hor
      rw [enlarge_granted a fill hgrant]
      exact granted_not_below a._alloced hmin hmax hgrant
  · intro index count a' h
    exact (remove_range_fields h).1
  · intro v a' r h
    exact (remove_ret h).1
  · intro index a' h
    exact (remove_at_ret h).1
  · intro a' v h
    exact (pop_front_ret h).1
  · intro a' v h
    exact (pop_back_ret h).1
  · intro compare_func a' h
    exact (sort_ret_fields h).2.1

/-- Witness of C18: the capacity of the full two-slot container after a
successful growth, and of the full container of capacity `2^30`, for which the
wrapped request is refused and the capacity stays. -/
theorem C18_capacity_never_shrinks_witness :
    (INT_MIN ≤ sampleFull._alloced ∧ sampleFull._alloced ≤ INT_MAX ∧
      (arraylist_enlarge sampleFull (some 0)).1._alloced = 4 ∧
      sampleFull._alloced ≤ (arraylist_enlarge sampleFull (some 0)).1._alloced) ∧
    (WF sampleHugeFull ∧
      (arraylist_enlarge sampleHugeFull (some 0)).1._alloced = 1073741824 ∧
      sampleHugeFull._alloced ≤ (arraylist_enlarge sampleHugeFull (some 0)).1._alloced) :=
  ⟨⟨by decide, by decide, by decide,
      (C18_capacity_never_shrinks sampleFull).2.1 (some 0) (by decide) (by decide)⟩,
    ⟨sampleHugeFull_WF, by decide,
      (C18_capacity_never_shrinks sampleHugeFull).2.1 (some 0) (by decide) (by decide)⟩⟩

/-! ## The post-state of a successful `arraylist_insert` -/

/-- Insertion into a container with a free slot: the exact container after
the call. -/
theorem insert_room (a : ArrayList) (index : Int) (v : ArrayListValue)
    (oracle : Option ArrayListValue) (hfree : a.spinlock = false) (hwf : WF a)
    (h0 : 0 ≤ index) (h1 : index ≤ a.length) (hroom : a.length < a._alloced) :
    ∃ w, arraylist_insert a index v oracle =
        .ret ({ data := w, length := a.length + 1, _alloced := a._alloced,
                spinlock := false }, 1) ∧
      (w.length : Int) = a._alloced ∧
      w.take (a.length.toNat + 1) =
        (slots a).take index.toNat ++ v :: (slots a).drop index.toNat := by
  obtain ⟨hl0, hl1, hcapmax, hblk⟩ := hwf
  unfold INT_MAX at hcapmax
  have hrange : ¬ (index < 0 ∨ index > a.length) := by omega
  have hno : ¬ (wrap32 (a.length + 1) > a._alloced) := by
    rw [wrap32_of_range _ (by omega) (by omega)]; omega
  obtain ⟨m, w, hm, hw, hwl, hshape⟩ :=
    shift_and_write a.data a.length index v h0 h1 (by omega) (by omega)
  refine ⟨w, ?_, by rw [hwl]; exact hblk, hshape⟩
  rw [insert_no_growth a index v oracle hfree hrange hno, hm, Outcome.bind_ret, hw,
    Outcome.bind_ret, wrap32_of_range _ (by omega) (by omega)]

/-- Insertion into a full container whose reallocation succeeds: the exact
container after the call.  The new capacity is the wrapped double. -/
theorem insert_full_grow (a : ArrayList) (index : Int) (v fill : ArrayListValue)
    (hfree : a.spinlock = false) (hwf : WF a) (h0 : 0 ≤ index) (h1 : index ≤ a.length)
    (hfull : a.length = a._alloced) (hc : 1 ≤ a._alloced)
    (hgrant : byte_size (wrap32 (a._alloced * 2)) ≤ PTRDIFF_MAX) :
    ∃ w, arraylist_insert a index v (some fill) =
        .ret ({ data := w, length := a.length + 1, _alloced := wrap32 (a._alloced * 2),
                spinlock := false }, 1) ∧
      w.length = byte_size (wrap32 (a._alloced * 2)) / sizeof_ArrayListValue ∧
      w.take (a.length.toNat + 1) =
        (slots a).take index.toNat ++ v :: (slots a).drop index.toNat := by
  obtain ⟨hl0, hl1, hcapmax, hblk⟩ := hwf
  unfold INT_MAX at hcapmax
  have hfit := granted_fits a._alloced (by omega) hcapmax hgrant
  have hrange : ¬ (index < 0 ∨ index > a.length) := by omega
  have hfire : wrap32 (a.length + 1) > a._alloced := by
    rw [wrap32_of_range _ (by omega) (by omega)]; omega
  have hbig := byte_size_double a._alloced hc (by omega)
  generalize hN : byte_size (wrap32 (a._alloced * 2)) / sizeof_ArrayListValue = N at hbig
  have hlen : (a.data.take N ++ List.replicate (N - a.data.length) fill).length = N := by
    simp only [List.length_append, List.length_take, List.length_replicate]
    omega
  obtain ⟨m, w, hm, hw, hwl, hshape⟩ :=
    shift_and_write (a.data.take N ++ List.replicate (N - a.data.length) fill)
      a.length index v h0 h1 (by rw [hlen]; omega) (by omega)
  have hkeep : (a.data.take N ++ List.replicate (N - a.data.length) fill).take a.length.toNat =
      a.data.take a.length.toNat := by
    rw [List.take_append_of_le_length (by simp only [List.length_take]; omega), List.take_take]
    congr 1
    omega
  refine ⟨w, ?_, by rw [hwl, hlen], ?_⟩
  · rw [insert_growth a index v fill hfree hrange hfire hgrant, hN, hm, Outcome.bind_ret, hw,
      Outcome.bind_ret, wrap32_of_range _ (by omega) (by omega)]
  · rw [hshape, hkeep]
    rfl

/-- A successful insertion (a free slot, or a growth step that returns 1 with a
larger capacity): the call returns 1 with the lock free, the container is
well-formed, `length` is one more and the value sits at `index`. -/
theorem insert_succeeds (a : ArrayList) (index : Int) (v : ArrayListValue)
    (oracle : Option ArrayListValue) (hfree : a.spinlock = false) (hwf : WF a)
    (h0 : 0 ≤ index) (h1 : index ≤ a.length)
    (hgrow : a.length < a._alloced ∨
      ((arraylist_enlarge a oracle).2 = 1 ∧
        a._alloced < (arraylist_enlarge a oracle).1._alloced)) :
    ∃ a1, arraylist_insert a index v oracle = .ret (a1, 1) ∧ a1.spinlock = false ∧
      WF a1 ∧ a1.length = a.length + 1 ∧
      slots a1 = (slots a).take index.toNat ++ v :: (slots a).drop index.toNat := by
  have hwf' := hwf
  obtain ⟨hl0, hl1, hcapmax, hblk⟩ := hwf'
  unfold INT_MAX at hcapmax
  by_cases hlt : a.length < a._alloced
  · obtain ⟨w, hrun, hwl, hshape⟩ := insert_room a index v oracle hfree hwf h0 h1 hlt
    refine ⟨_, hrun, rfl, ⟨?_, ?_, ?_, hwl⟩, rfl, ?_⟩
    · show 0 ≤ a.length + 1
      omega
    · show a.length + 1 ≤ a._alloced
      omega
    · show a._alloced ≤ INT_MAX
      unfold INT_MAX; exact hcapmax
    · show w.take (a.length + 1).toNat = _
      rw [← hshape]
      congr 1
      omega
  · rcases hgrow with hlt' | ⟨hret, hcap⟩
    · exact absurd hlt' hlt
    · cases oracle with
      | none => simp [arraylist_enlarge, jvm_realloc] at hret
      | some fill =>
        have hgrant : byte_size (wrap32 (a._alloced * 2)) ≤ PTRDIFF_MAX := by
          by_contra hno
          simp [arraylist_enlarge, jvm_realloc, hno] at hret
        simp only [arraylist_enlarge, jvm_realloc, if_pos hgrant] at hcap
        have hc1 : 1 ≤ a._alloced ∧ a._alloced * 2 ≤ 2147483647 := by
          unfold wrap32 at hcap; omega
        have hdouble : wrap32 (a._alloced * 2) = a._alloced * 2 :=
          wrap32_of_range _ (by omega) (by omega)
        have hn : byte_size (a._alloced * 2) / sizeof_ArrayListValue = (a._alloced * 2).toNat :=
          byte_size_slots _ (by omega) (by omega)
        obtain ⟨w, hrun, hwl, hshape⟩ :=
          insert_full_grow a index v fill hfree hwf h0 h1 (by omega) hc1.1 hgrant
        rw [hdouble] at hrun
        rw [hdouble, hn] at hwl
        refine ⟨_, hrun, rfl, ⟨?_, ?_, ?_, ?_⟩, rfl, ?_⟩
        · show 0 ≤ a.length + 1
          omega
        · show a.length + 1 ≤ a._alloced * 2
          omega
        · show a._alloced * 2 ≤ INT_MAX
          unfold INT_MAX; omega
        · show (w.length : Int) = a._alloced * 2
          rw [hwl]; omega
        · show w.take (a.length + 1).toNat = _
          rw [← hshape]
          congr 1
          omega

theorem slots_length (a : ArrayList) (hwf : WF a) : (slots a).length = a.length.toNat := by
  obtain ⟨hl0, hl1, hcapmax, hblk⟩ := hwf
  unfold slots
  simp only [List.length_take]
  omega

/-- C12 (amended): on a well-formed container with the lock free and an index
in `[0, length]`, when the insertion takes place (there is a free slot, or the
growth step returns 1 with a larger capacity), `arraylist_insert(L, i, v)`
followed by `arraylist_remove_at(L, i)` returns a container with the length
and the occupied slots of `L` before the insert. -/
theorem C12_insert_then_remove_at (a : ArrayList) (index : Int) (v : ArrayListValue)
    (oracle : Option ArrayListValue) (hfree : a.spinlock = false) (hwf : WF a)
    (h0 : 0 ≤ index) (h1 : index ≤ a.length)
    (hgrow : a.length < a._alloced ∨
      ((arraylist_enlarge a oracle).2 = 1 ∧
        a._alloced < (arraylist_enlarge a oracle).1._alloced)) :
    ∃ a1 a2, arraylist_insert a index v oracle = .ret (a1, 1) ∧
      arraylist_remove_at a1 index = .ret a2 ∧
      slots a2 = slots a ∧ a2.length = a.length := by
  obtain ⟨a1, hins, hfree1, hwf1, hlen1, hslots1⟩ :=
    insert_succeeds a index v oracle hfree hwf h0 h1 hgrow
  have hS := slots_length a hwf
  obtain ⟨hl0, hl1, hcapmax, hblk⟩ := hwf
  obtain ⟨hk0, hk1, hkmax, hkblk⟩ := hwf1
  unfold INT_MAX at hcapmax hkmax
  obtain ⟨m, hrm, -, hshape⟩ :=
    remove_range_ok { a1 with spinlock := true } index 1
      (by simp only; omega) (by simp only; omega) h0 (by omega) (by simp only; omega)
  have hs : slots { a1 with spinlock := true } = slots a1 := rfl
  rw [hs, hslots1] at hshape
  refine ⟨a1, { data := m, length := a1.length - 1, _alloced := a1._alloced,
                spinlock := false }, hins, ?_, ?_, ?_⟩
  · unfold arraylist_remove_at
    rw [spin_lock_free a1 hfree1, Outcome.bind_ret, hrm, Outcome.bind_ret]
    rfl
  · show m.take (a1.length - 1).toNat = slots a
    rw [hshape]
    have hti : ((slots a).take index.toNat).length = index.toNat := by
      rw [List.length_take, hS]; omega
    have e : (index + 1).toNat = ((slots a).take index.toNat).length + 1 := by rw [hti]; omega
    rw [List.take_append_of_le_length (by rw [hti]), e, List.drop_append,
      List.take_of_length_le (by rw [hti])]
    simp
  · show a1.length - 1 = a.length
    omega

/-- Witness of C12: inserting 5 at index 1 of `[7, 8, 9]` and removing index 1. -/
theorem C12_insert_then_remove_at_witness :
    WF sample3 ∧
      ∃ a1 a2, arraylist_insert sample3 1 5 none = .ret (a1, 1) ∧
        arraylist_remove_at a1 1 = .ret a2 ∧
        slots a2 = slots sample3 ∧ a2.length = sample3.length :=
  ⟨by decide,
    C12_insert_then_remove_at sample3 1 5 none (by decide) (by decide) (by decide) (by decide)
      (by decide)⟩

/-- C12 as stated fails on a full list whose growth fails: on `[7, 8]` with the
reallocation returning null, `arraylist_insert(L, 0, 5)` inserts nothing and
`arraylist_remove_at(L, 0)` then removes the old slot 0, leaving `[8]`. -/
theorem C12_insert_then_remove_at_counterexample :
    WF sampleFull ∧
      arraylist_insert sampleFull 0 5 none = .ret (sampleFull, 1) ∧
      ∃ a2, arraylist_remove_at sampleFull 0 = .ret a2 ∧ slots a2 = [8] ∧
        slots a2 ≠ slots sampleFull ∧ a2.length ≠ sampleFull.length :=
  ⟨by decide, by decide,
    ⟨{ data := [8, 8], length := 1, _alloced := 2, spinlock := false },
      by decide, by decide, by decide, by decide⟩⟩

/-- C13 (amended): on a well-formed container with the lock free, when the
insertion takes place (there is a free slot, or the growth step returns 1 with
a larger capacity), `arraylist_push_end(L, v)` returns and
`arraylist_get_value` at the new `length - 1` returns `v`. -/
theorem C13_push_end_then_get (a : ArrayList) (v : ArrayListValue)
    (oracle : Option ArrayListValue) (hfree : a.spinlock = false) (hwf : WF a)
    (hgrow : a.length < a._alloced ∨
      ((arraylist_enlarge a oracle).2 = 1 ∧
        a._alloced < (arraylist_enlarge a oracle).1._alloced)) :
    ∃ a1, arraylist_push_end a v oracle = .ret (a1, 1) ∧
      arraylist_get_value a1 (a1.length - 1) = .ret (a1, v) := by
  obtain ⟨a1, hins, hfree1, hwf1, hlen1, hslots1⟩ :=
    insert_succeeds a a.length v oracle hfree hwf hwf.1 (le_refl _) hgrow
  have hS := slots_length a hwf
  obtain ⟨hl0, hl1, hcapmax, hblk⟩ := hwf
  obtain ⟨hk0, hk1, hkmax, hkblk⟩ := hwf1
  refine ⟨a1, hins, ?_⟩
  have hlast : (slots a1)[a.length.toNat]? = some v := by
    rw [hslots1, List.take_of_length_le (by rw [hS]), List.drop_of_length_le (by rw [hS]),
      List.getElem?_append_right (by rw [hS])]
    simp [hS]
  rw [slots_getElem? a1 _ (by omega)] at hlast
  have hload : load a1.data (a1.length - 1) = .ret v := by
    have := load_nat a1.data a.length.toNat v hlast
    rwa [Int.toNat_of_nonneg hl0, show a.length = a1.length - 1 by omega] at this
  unfold arraylist_get_value
  rw [spin_lock_free a1 hfree1, Outcome.bind_ret]
  dsimp only
  rw [if_pos (by omega), hload, Outcome.bind_ret, unlock_lock a1 hfree1]

/-- Witness of C13: pushing 5 at the end of `[7, 8, 9]`. -/
theorem C13_push_end_then_get_witness :
    WF sample3 ∧
      ∃ a1, arraylist_push_end sample3 5 none = .ret (a1, 1) ∧
        arraylist_get_value a1 (a1.length - 1) = .ret (a1, 5) :=
  ⟨by decide, C13_push_end_then_get sample3 5 none (by decide) (by decide) (by decide)⟩

/-- C13 as stated fails on a full list whose growth fails: on `[7, 8]` with the
reallocation returning null, `arraylist_push_end(L, 5)` returns 1 without
appending, and reading at `length - 1` returns 8, not 5. -/
theorem C13_push_end_then_get_counterexample :
    WF sampleFull ∧
      arraylist_push_end sampleFull 5 none = .ret (sampleFull, 1) ∧
      arraylist_get_value sampleFull (sampleFull.length - 1) = .ret (sampleFull, 8) ∧
      (8 : ArrayListValue) ≠ 5 := by
  decide

/-! ## Appending and the default capacity -/

theorem append_shape (S : List ArrayListValue) (n : Nat) (v : ArrayListValue)
    (hn : S.length = n) : S.take n ++ v :: S.drop n = S ++ [v] := by
  rw [List.take_of_length_le (by omega), List.drop_of_length_le (by omega)]

/-- `arraylist_push_end` on a container with a free slot. -/
theorem push_end_room (a : ArrayList) (v : ArrayListValue) (oracle : Option ArrayListValue)
    (hfree : a.spinlock = false) (hwf : WF a) (hroom : a.length < a._alloced) :
    ∃ a1, arraylist_push_end a v oracle = .ret (a1, 1) ∧ a1.spinlock = false ∧ WF a1 ∧
      a1._alloced = a._alloced ∧ a1.length = a.length + 1 ∧ slots a1 = slots a ++ [v] := by
  have hS := slots_length a hwf
  obtain ⟨w, hrun, hwl, hshape⟩ :=
    insert_room a a.length v oracle hfree hwf hwf.1 (le_refl _) hroom
  obtain ⟨hl0, hl1, hcapmax, hblk⟩ := hwf
  refine ⟨_, hrun, rfl, ⟨?_, ?_, hcapmax, hwl⟩, rfl, rfl, ?_⟩
  · show 0 ≤ a.length + 1
    omega
  · show a.length + 1 ≤ a._alloced
    omega
  · show w.take (a.length + 1).toNat = slots a ++ [v]
    rw [← append_shape (slots a) a.length.toNat v hS, ← hshape]
    congr 1
    omega

/-- `arraylist_push_end` on a full container whose doubled capacity fits an
`int`, the reallocation succeeding. -/
theorem push_end_grow (a : ArrayList) (v fill : ArrayListValue)
    (hfree : a.spinlock = false) (hwf : WF a) (hfull : a.length = a._alloced)
    (hc : 1 ≤ a._alloced) (hfit : a._alloced * 2 ≤ 2147483647) :
    ∃ a1, arraylist_push_end a v (some fill) = .ret (a1, 1) ∧ a1.spinlock = false ∧ WF a1 ∧
      a1._alloced = a._alloced * 2 ∧ a1.length = a.length + 1 ∧
      slots a1 = slots a ++ [v] := by
  have hS := slots_length a hwf
  obtain ⟨w, hrun, hwl, hshape⟩ :=
    insert_full_grow a a.length v fill hfree hwf hwf.1 (le_refl _) hfull hc
      (fits_granted a._alloced (by omega) hfit)
  obtain ⟨hl0, hl1, hcapmax, hblk⟩ := hwf
  have hdouble : wrap32 (a._alloced * 2) = a._alloced * 2 :=
    wrap32_of_range _ (by omega) (by omega)
  have hn : byte_size (a._alloced * 2) / sizeof_ArrayListValue = (a._alloced * 2).toNat :=
    byte_size_slots _ (by omega) (by omega)
  rw [hdouble] at hrun
  rw [hdouble, hn] at hwl
  refine ⟨_, hrun, rfl, ⟨?_, ?_, ?_, ?_⟩, rfl, rfl, ?_⟩
  · show 0 ≤ a.length + 1
    omega
  · show a.length + 1 ≤ a._alloced * 2
    omega
  · show a._alloced * 2 ≤ INT_MAX
    unfold INT_MAX; omega
  · show (w.length : Int) = a._alloced * 2
    rw [hwl]; omega
  · show w.take (a.length + 1).toNat = slots a ++ [v]
    rw [← append_shape (slots a) a.length.toNat v hS, ← hshape]
    congr 1
    omega

/-- Appending a list of values that fits into the free slots. -/
theorem push_end_all_room (fill : ArrayListValue) (vs : List ArrayListValue) :
    ∀ a : ArrayList, a.spinlock = false → WF a →
      a.length + (vs.length : Int) ≤ a._alloced →
      ∃ a', push_end_all fill a vs = .ret a' ∧ a'.spinlock = false ∧ WF a' ∧
        a'._alloced = a._alloced ∧ a'.length = a.length + (vs.length : Int) ∧
        slots a' = slots a ++ vs := by
  induction vs with
  | nil =>
    intro a hfree hwf _
    exact ⟨a, rfl, hfree, hwf, rfl, by simp, by simp⟩
  | cons v vs ih =>
    intro a hfree hwf hfit
    simp only [List.length_cons, Nat.cast_add, Nat.cast_one] at hfit
    obtain ⟨a1, hrun, hfree1, hwf1, hcap1, hlen1, hslots1⟩ :=
      push_end_room a v (some fill) hfree hwf (by omega)
    obtain ⟨a', hrun', hfree', hwf', hcap', hlen', hslots'⟩ :=
      ih a1 hfree1 hwf1 (by omega)
    refine ⟨a', ?_, hfree', hwf', by omega, ?_, ?_⟩
    · show (arraylist_push_end a v (some fill)).bind _ = _
      rw [hrun, Outcome.bind_ret]
      exact hrun'
    · simp only [List.length_cons, Nat.cast_add, Nat.cast_one]
      omega
    · rw [hslots', hslots1]
      simp

theorem push_end_all_append (fill : ArrayListValue) (xs ys : List ArrayListValue) :
    ∀ a : ArrayList, push_end_all fill a (xs ++ ys) =
      (push_end_all fill a xs).bind fun a' => push_end_all fill a' ys := by
  induction xs with
  | nil => intro a; rfl
  | cons x xs ih =>
    intro a
    show (arraylist_push_end a x (some fill)).bind _ = _
    cases h : arraylist_push_end a x (some fill) with
    | ret r =>
      simp only [push_end_all, h, Outcome.bind_ret]
      exact ih r.1
    | deadlock => simp [push_end_all, h, Outcome.bind]
    | fault => simp [push_end_all, h, Outcome.bind]

/-- The container made by `arraylist_create` for a non-positive request. -/
theorem create_default (n : Int) (hn : n ≤ 0) :
    arraylist_create n true true =
      some { data := List.replicate 16 NULL, length := 0, _alloced := 16,
             spinlock := false } := by
  unfold arraylist_create
  rw [if_pos hn]
  rfl

/-- C14: a list created with a non-positive requested capacity has capacity 16
and length 0; appending 17 values with every allocation succeeding leaves the
capacity at 16 after each of the first 16 calls and at 32 after the 17th, when
`length` is 17 and the occupied slots are the 17 values in insertion order. -/
theorem C14_default_capacity_growth (n : Int) (hn : n ≤ 0) (vs : List ArrayListValue)
    (hvs : vs.length = 17) (fill : ArrayListValue) :
    ∃ a0, arraylist_create n true true = some a0 ∧ a0._alloced = 16 ∧ a0.length = 0 ∧
      (∀ k : Nat, k ≤ 16 →
        ∃ ak, push_end_all fill a0 (vs.take k) = .ret ak ∧ ak._alloced = 16 ∧
          ak.length = k ∧ slots ak = vs.take k) ∧
      ∃ a17, push_end_all fill a0 vs = .ret a17 ∧ a17._alloced = 32 ∧ a17.length = 17 ∧
        slots a17 = vs := by
  have hwf0 : WF { data := List.replicate 16 NULL, length := 0, _alloced := 16,
                   spinlock := false } := by decide
  have hprefix : ∀ k : Nat, k ≤ 16 →
      ∃ ak, push_end_all fill { data := List.replicate 16 NULL, length := 0, _alloced := 16,
                                spinlock := false } (vs.take k) = .ret ak ∧
        ak.spinlock = false ∧ WF ak ∧
        ak._alloced = 16 ∧ ak.length = k ∧ slots ak = vs.take k := by
    intro k hk
    have hlk : (vs.take k).length = k := by rw [List.length_take]; omega
    obtain ⟨ak, hrun, hfree, hwf, hcap, hlen, hslots⟩ :=
      push_end_all_room fill (vs.take k) _ rfl hwf0 (by rw [hlk]; show (0 : Int) + k ≤ 16; omega)
    refine ⟨ak, hrun, hfree, hwf, hcap, ?_, ?_⟩
    · rw [hlen, hlk]; show (0 : Int) + k = k; omega
    · rw [hslots]; rfl
  refine ⟨_, create_default n hn, rfl, rfl, ?_, ?_⟩
  · intro k hk
    obtain ⟨ak, hrun, -, -, hcap, hlen, hslots⟩ := hprefix k hk
    exact ⟨ak, hrun, hcap, hlen, hslots⟩
  · obtain ⟨a16, hrun, hfree, hwf, hcap, hlen, hslots⟩ := hprefix 16 (le_refl _)
    have hsplit : vs = vs.take 16 ++ vs.drop 16 := (List.take_append_drop 16 vs).symm
    have hdl : (vs.drop 16).length = 1 := by rw [List.length_drop]; omega
    obtain ⟨x, hx⟩ := List.length_eq_one.mp hdl
    obtain ⟨a17, hrun17, -, -, hcap17, hlen17, hslots17⟩ :=
      push_end_grow a16 x fill hfree hwf (by rw [hlen, hcap]; rfl) (by omega) (by omega)
    refine ⟨a17, ?_, by omega, by omega, ?_⟩
    · rw [hsplit, push_end_all_append, hrun, Outcome.bind_ret, hx]
      show (arraylist_push_end a16 x (some fill)).bind _ = _
      rw [hrun17, Outcome.bind_ret]
      rfl
    · rw [hslots17, hslots, ← hx]
      exact hsplit.symm

/-- Witness of C14: the values 1 to 17 appended to a list created with request 0. -/
theorem C14_default_capacity_growth_witness :
    ∃ a0, arraylist_create 0 true true = some a0 ∧ a0._alloced = 16 ∧ a0.length = 0 ∧
      (∀ k : Nat, k ≤ 16 →
        ∃ ak, push_end_all 0 a0
            ([1, 2, 3, 4, 5, 6, 7, 8, 9, 10, 11, 12, 13, 14, 15, 16, 17].take k) = .ret ak ∧
          ak._alloced = 16 ∧ ak.length = k ∧
          slots ak = [1, 2, 3, 4, 5, 6, 7, 8, 9, 10, 11, 12, 13, 14, 15, 16, 17].take k) ∧
      ∃ a17, push_end_all 0 a0 [1, 2, 3, 4, 5, 6, 7, 8, 9, 10, 11, 12, 13, 14, 15, 16, 17] =
          .ret a17 ∧ a17._alloced = 32 ∧ a17.length = 17 ∧
        slots a17 = [1, 2, 3, 4, 5, 6, 7, 8, 9, 10, 11, 12, 13, 14, 15, 16, 17] :=
  C14_default_capacity_growth 0 (by decide)
    [1, 2, 3, 4, 5, 6, 7, 8, 9, 10, 11, 12, 13, 14, 15, 16, 17] (by decide) 0

/-! ## `arraylist_sort_internal` and `arraylist_sort` -/

theorem getElem?_mid (P S : List ArrayListValue) (x : ArrayListValue) :
    (P ++ x :: S)[P.length]? = some x := by
  rw [List.getElem?_append_right (le_refl _)]
  simp

theorem set_mid (P S : List ArrayListValue) (x v : ArrayListValue) :
    (P ++ x :: S).set P.length v = P ++ v :: S := by
  simp

theorem store_nat (d : List ArrayListValue) (k : Nat) (v : ArrayListValue) (hk : k < d.length) :
    store d (k : Int) v = .ret (d.set k v) := by
  unfold store
  rw [if_pos ⟨by omega, by omega⟩, Int.toNat_ofNat]

theorem swap_shape (A B S : List ArrayListValue) (b x : ArrayListValue) :
    ((A ++ b :: (B ++ x :: S)).set (A.length + (B.length + 1)) b).set A.length x =
      A ++ x :: (B ++ b :: S) := by
  have e : A ++ b :: (B ++ x :: S) = (A ++ b :: B) ++ x :: S := by simp
  have hl : A.length + (B.length + 1) = (A ++ b :: B).length := by simp
  rw [e, hl, set_mid]
  have e2 : (A ++ b :: B) ++ b :: S = A ++ b :: (B ++ b :: S) := by simp
  rw [e2, set_mid]

theorem partition_loop_succ (compare_func : ArrayListValue → ArrayListValue → Int)
    (pivot : ArrayListValue) (trips : Nat) (list_data : List ArrayListValue) (i : Nat)
    (list1_length : Int) :
    partition_loop compare_func pivot (trips + 1) list_data i list1_length =
      (load list_data (i : Int)).bind fun x =>
        if compare_func x pivot < 0 then
          (load list_data list1_length).bind fun y =>
            (store list_data (i : Int) y).bind fun d1 =>
              (store d1 list1_length x).bind fun d2 =>
                partition_loop compare_func pivot trips d2 (i + 1) (wrap32 (list1_length + 1))
        else partition_loop compare_func pivot trips list_data (i + 1) list1_length := rfl

/-- The partition loop on memory `A ++ B ++ R ++ T`, where `A` is list 1 so
far, `B` is list 2 so far and `R` is still to be visited: it ends with list 1
and list 2 holding the items of `A ++ B ++ R`, list 1 those that compare below
the pivot. -/
theorem partition_loop_spec (cmp : ArrayListValue → ArrayListValue → Int)
    (p : ArrayListValue) (T : List ArrayListValue) :
    ∀ (R A B d : List ArrayListValue) (i : Nat) (l1 : Int),
      d = A ++ (B ++ (R ++ T)) → i = A.length + B.length → l1 = (A.length : Int) →
      ((A.length + B.length + R.length : Nat) : Int) ≤ 2147483647 →
      (∀ x ∈ A, cmp x p < 0) → (∀ x ∈ B, ¬ cmp x p < 0) →
      ∃ A' B', partition_loop cmp p R.length d i l1 =
          .ret (A' ++ (B' ++ T), (A'.length : Int)) ∧
        (A' ++ B').Perm (A ++ (B ++ R)) ∧ (∀ x ∈ A', cmp x p < 0) ∧
        (∀ x ∈ B', ¬ cmp x p < 0) := by
  intro R
  induction R with
  | nil =>
    intro A B d i l1 hd hi hl _ hA hB
    subst hd hl
    exact ⟨A, B, rfl, by simp, hA, hB⟩
  | cons x R ih =>
    intro A B d i l1 hd hi hl hmax hA hB
    subst hd hi hl
    simp only [List.length_cons] at hmax
    have hx : (A ++ (B ++ (x :: R ++ T)))[A.length + B.length]? = some x := by
      have e : A ++ (B ++ (x :: R ++ T)) = (A ++ B) ++ x :: (R ++ T) := by simp
      rw [e, ← List.length_append]
      exact getElem?_mid _ _ _
    rw [List.length_cons, partition_loop_succ, load_nat _ _ _ hx, Outcome.bind_ret]
    by_cases hc : cmp x p < 0
    · rw [if_pos hc]
      have hw : wrap32 ((A.length : Int) + 1) = ((A ++ [x]).length : Int) := by
        rw [wrap32_of_range _ (by omega) (by omega)]
        simp
      have hA2 : ∀ y ∈ A ++ [x], cmp y p < 0 := by
        intro y hy
        rcases List.mem_append.mp hy with h | h
        · exact hA y h
        · rw [List.mem_singleton.mp h]; exact hc
      cases B with
      | nil =>
        have hy : (A ++ ([] ++ (x :: R ++ T)))[A.length]? = some x := by
          simpa using hx
        have hset : (A ++ ([] ++ (x :: R ++ T))).set A.length x =
            A ++ ([] ++ (x :: R ++ T)) := by
          simp
        have hlen : A.length < (A ++ ([] ++ (x :: R ++ T))).length := by
          simp
        rw [load_nat _ _ _ hy, Outcome.bind_ret]
        have hi0 : A.length + ([] : List ArrayListValue).length = A.length := by simp
        rw [hi0, store_nat _ _ _ hlen, Outcome.bind_ret, hset, store_nat _ _ _ hlen,
          Outcome.bind_ret, hset]
        obtain ⟨A', B', hrun, hperm, hA', hB'⟩ :=
          ih (A ++ [x]) [] (A ++ ([] ++ (x :: R ++ T))) (A.length + 1) (wrap32 (A.length + 1))
            (by simp) (by simp) hw (by simp; omega) hA2 (by simp)
        refine ⟨A', B', hrun, ?_, hA', hB'⟩
        refine hperm.trans ?_
        simp
      | cons b B =>
        have hy : (A ++ (b :: B ++ (x :: R ++ T)))[A.length]? = some b := by
          have := getElem?_mid A (B ++ (x :: R ++ T)) b
          simpa using this
        have hlen1 : A.length + (b :: B).length < (A ++ (b :: B ++ (x :: R ++ T))).length := by
          simp
        have hlen2 : A.length <
            ((A ++ (b :: B ++ (x :: R ++ T))).set (A.length + (b :: B).length) b).length := by
          simp
        have hswap : ((A ++ (b :: B ++ (x :: R ++ T))).set (A.length + (b :: B).length) b).set
            A.length x = (A ++ [x]) ++ ((B ++ [b]) ++ (R ++ T)) := by
          have hsw := swap_shape A B (R ++ T) b x
          simp only [List.length_cons, List.cons_append, List.append_assoc,
            List.singleton_append] at hsw ⊢
          exact hsw
        rw [load_nat _ _ _ hy, Outcome.bind_ret, store_nat _ _ _ hlen1, Outcome.bind_ret,
          store_nat _ _ _ hlen2, Outcome.bind_ret, hswap]
        have hB2 : ∀ y ∈ B ++ [b], ¬ cmp y p < 0 := by
          intro y hy
          apply hB
          rcases List.mem_append.mp hy with h | h
          · exact List.mem_cons_of_mem _ h
          · rw [List.mem_singleton.mp h]; exact List.mem_cons_self _ _
        obtain ⟨A', B', hrun, hperm, hA', hB'⟩ :=
          ih (A ++ [x]) (B ++ [b]) _ (A.length + (b :: B).length + 1)
            (wrap32 (A.length + 1)) rfl (by simp; omega) hw
            (by simp at hmax ⊢; omega) hA2 hB2
        refine ⟨A', B', hrun, ?_, hA', hB'⟩
        refine hperm.trans ?_
        simp only [List.append_assoc]
        refine List.Perm.append_left A ?_
        simp only [List.singleton_append]
        -- x :: (B ++ b :: R) ~ b :: (B ++ x :: R)
        have h1 : (x :: (B ++ b :: R)).Perm (b :: B ++ x :: R) := by
          have : (x :: (B ++ b :: R)).Perm (x :: b :: (B ++ R)) :=
            List.Perm.cons x List.perm_middle
          refine this.trans ?_
          have h2 : (b :: B ++ x :: R).Perm (x :: (b :: B ++ R)) := List.perm_middle
          exact h2.symm
        simpa using h1
    · rw [if_neg hc]
      have hB2 : ∀ y ∈ B ++ [x], ¬ cmp y p < 0 := by
        intro y hy
        rcases List.mem_append.mp hy with h | h
        · exact hB y h
        · rw [List.mem_singleton.mp h]; exact hc
      obtain ⟨A', B', hrun, hperm, hA', hB'⟩ :=
        ih A (B ++ [x]) (A ++ (B ++ (x :: R ++ T))) (A.length + B.length + 1) (A.length : Int)
          (by simp) (by simp; omega) rfl (by simp; omega) hA hB2
      refine ⟨A', B', hrun, ?_, hA', hB'⟩
      refine hperm.trans ?_
      simp

/-- Lines 278-326 on memory `init ++ p :: T` with `list_length = |init| + 1`:
the pivot `p` ends between list 1 (`A`, items below the pivot) and list 2
(`C`, the other items). -/
theorem sort_split_spec (cmp : ArrayListValue → ArrayListValue → Int)
    (init T : List ArrayListValue) (p : ArrayListValue) (L : Int)
    (hL : L = (init.length : Int) + 1) (hmax : L ≤ 2147483647) :
    ∃ A C, sort_split cmp (init ++ p :: T) L =
        .ret (A ++ p :: (C ++ T), (A.length : Int), (C.length : Int)) ∧
      (A ++ C).Perm init ∧ (∀ x ∈ A, cmp x p < 0) ∧ (∀ x ∈ C, ¬ cmp x p < 0) := by
  subst hL
  have e1 : wrap32 ((init.length : Int) + 1 - 1) = (init.length : Int) := by
    rw [wrap32_of_range _ (by omega) (by omega)]; omega
  obtain ⟨A, B, hrun, hperm, hA, hB⟩ :=
    partition_loop_spec cmp p (p :: T) init [] [] (init ++ p :: T) 0 0 (by simp) (by simp)
      (by simp) (by simp; omega) (by simp) (by simp)
  have hlen : A.length + B.length = init.length := by
    have := hperm.length_eq
    simpa using this
  unfold sort_split
  rw [e1, load_nat _ _ _ (getElem?_mid init T p), Outcome.bind_ret, Int.toNat_ofNat, hrun,
    Outcome.bind_ret]
  dsimp only
  have e2 : wrap32 (wrap32 ((init.length : Int) + 1 - (A.length : Int)) - 1) =
      (B.length : Int) := by
    have inner : wrap32 ((init.length : Int) + 1 - (A.length : Int)) =
        (init.length : Int) + 1 - (A.length : Int) :=
      wrap32_of_range _ (by omega) (by omega)
    rw [inner, wrap32_of_range _ (by omega) (by omega)]
    omega
  rw [e2]
  cases B with
  | nil =>
    have hy : (A ++ ([] ++ p :: T))[A.length]? = some p := by
      simpa using getElem?_mid A T p
    have hAl : A.length = init.length := by simpa using hlen
    have hlt : A.length < (A ++ ([] ++ p :: T)).length := by simp
    have hset : (A ++ ([] ++ p :: T)).set A.length p = A ++ ([] ++ p :: T) := by simp
    rw [load_nat _ _ _ hy, Outcome.bind_ret, ← hAl, store_nat _ _ _ hlt, Outcome.bind_ret, hset,
      store_nat _ _ _ hlt, Outcome.bind_ret, hset]
    exact ⟨A, [], by simp, by simpa using hperm, hA, by simp⟩
  | cons b B =>
    have hy : (A ++ (b :: B ++ p :: T))[A.length]? = some b := by
      simpa using getElem?_mid A (B ++ p :: T) b
    have hil : init.length = A.length + (B.length + 1) := by
      simp at hlen; omega
    have hsw := swap_shape A B T b p
    simp only [List.cons_append] at hsw ⊢
    rw [load_nat _ _ _ (by simpa using hy), Outcome.bind_ret, hil,
      store_nat _ _ _ (by simp), Outcome.bind_ret, store_nat _ _ _ (by simp),
      Outcome.bind_ret, hsw]
    refine ⟨A, B ++ [b], by simp, ?_, hA, ?_⟩
    · refine List.Perm.trans ?_ hperm
      refine List.Perm.append_left A ?_
      exact List.perm_append_singleton b B
    · intro y hy
      apply hB
      rcases List.mem_append.mp hy with h | h
      · exact List.mem_cons_of_mem _ h
      · rw [List.mem_singleton.mp h]; exact List.mem_cons_self _ _

theorem sort_internal_small (cmp : ArrayListValue → ArrayListValue → Int) (depth : Nat)
    (list_data : List ArrayListValue) (L : Int) (hL : L ≤ 1) :
    arraylist_sort_internal cmp depth list_data L = some (.ret list_data) := by
  cases depth with
  | zero => simp [arraylist_sort_internal, hL]
  | succ n => simp [arraylist_sort_internal, hL]

theorem sort_internal_step (cmp : ArrayListValue → ArrayListValue → Int) (depth : Nat)
    (list_data d d3 t : List ArrayListValue) (L l1 l2 : Int) (hL : ¬ L ≤ 1)
    (hsplit : sort_split cmp list_data L = .ret (d, l1, l2))
    (h1 : arraylist_sort_internal cmp depth d l1 = some (.ret d3))
    (hoff : 0 ≤ wrap32 (l1 + 1) ∧ wrap32 (l1 + 1) ≤ (d3.length : Int))
    (h2 : arraylist_sort_internal cmp depth (d3.drop (wrap32 (l1 + 1)).toNat) l2 =
      some (.ret t)) :
    arraylist_sort_internal cmp (depth + 1) list_data L =
      some (.ret (d3.take (wrap32 (l1 + 1)).toNat ++ t)) := by
  rw [arraylist_sort_internal, if_neg hL, hsplit]
  simp only [h1]
  rw [if_pos hoff]
  simp only [h2]

/-- A non-empty list is its items before the last followed by the last. -/
theorem exists_init_last (seg : List ArrayListValue) (h : 2 ≤ seg.length) :
    ∃ init p, seg = init ++ [p] ∧ init.length + 1 = seg.length := by
  have hne : seg ≠ [] := by
    intro he; rw [he] at h; simp at h
  refine ⟨seg.dropLast, seg.getLast hne, (List.dropLast_append_getLast hne).symm, ?_⟩
  rw [List.length_dropLast]
  omega

/-- `arraylist_sort_internal` on memory `seg ++ T` with `list_length = |seg|`
and a call counter of at least `|seg|`: it returns, the memory after `seg` is
untouched, the new segment is a permutation of `seg`, and it is sorted when
the comparator orders `y` before or with `x` whenever it does not order `x`
before `y`. -/
theorem sort_internal_spec (cmp : ArrayListValue → ArrayListValue → Int) :
    ∀ (depth : Nat) (seg T : List ArrayListValue) (L : Int),
      L = (seg.length : Int) → seg.length ≤ depth → L ≤ 2147483647 →
      ∃ seg', arraylist_sort_internal cmp depth (seg ++ T) L = some (.ret (seg' ++ T)) ∧
        seg'.Perm seg ∧
        ((∀ x y, ¬ cmp x y < 0 → cmp y x ≤ 0) →
          List.Chain' (fun x y => cmp x y ≤ 0) seg') := by
  intro depth
  induction depth with
  | zero =>
    intro seg T L hL hd hmax
    have hnil : seg = [] := List.length_eq_zero.mp (by omega)
    subst hnil
    exact ⟨[], sort_internal_small cmp 0 _ L (by rw [hL]; simp), List.Perm.refl _,
      fun _ => List.chain'_nil⟩
  | succ n ih =>
    intro seg T L hL hd hmax
    by_cases hsmall : L ≤ 1
    · refine ⟨seg, sort_internal_small cmp _ _ L hsmall, List.Perm.refl _, fun _ => ?_⟩
      match seg, hL with
      | [], _ => exact List.chain'_nil
      | [x], _ => exact List.chain'_singleton x
      | x :: y :: t, hL =>
        simp only [List.length_cons] at hL
        omega
    · obtain ⟨init, p, hseg, hlen⟩ := exists_init_last seg (by omega)
      subst hseg
      have hmem : (init ++ [p]) ++ T = init ++ p :: T := by simp
      obtain ⟨A, C, hsplit, hperm, hA, hC⟩ :=
        sort_split_spec cmp init T p L (by rw [hL]; omega) hmax
      have hAC : A.length + C.length = init.length := by
        have := hperm.length_eq
        simpa using this
      obtain ⟨A', hrunA, hpermA, hsortA⟩ :=
        ih A (p :: (C ++ T)) (A.length : Int) rfl (by omega) (by omega)
      obtain ⟨C', hrunC, hpermC, hsortC⟩ :=
        ih C T (C.length : Int) rfl (by omega) (by omega)
      have hA'l : A'.length = A.length := hpermA.length_eq
      have hoff : wrap32 ((A.length : Int) + 1) = ((A'.length + 1 : Nat) : Int) := by
        rw [wrap32_of_range _ (by omega) (by omega), hA'l]
        omega
      have hdrop : (A' ++ p :: (C ++ T)).drop (A'.length + 1) = C ++ T := by
        have e : A' ++ p :: (C ++ T) = (A' ++ [p]) ++ (C ++ T) := by simp
        have hl : A'.length + 1 = (A' ++ [p]).length := by simp
        rw [e, hl, List.drop_left]
      have htake : (A' ++ p :: (C ++ T)).take (A'.length + 1) = A' ++ [p] := by
        have e : A' ++ p :: (C ++ T) = (A' ++ [p]) ++ (C ++ T) := by simp
        have hl : A'.length + 1 = (A' ++ [p]).length := by simp
        rw [e, hl, List.take_left]
      have hstep := sort_internal_step cmp n (init ++ p :: T) _ (A' ++ p :: (C ++ T))
        (C' ++ T) L _ _ hsmall hsplit hrunA
        (by rw [hoff]; constructor
            · omega
            · simp only [List.length_append, List.length_cons, Nat.cast_add, Nat.cast_one]
              omega)
        (by rw [hoff, Int.toNat_ofNat, hdrop]; exact hrunC)
      rw [hoff, Int.toNat_ofNat, htake] at hstep
      refine ⟨A' ++ p :: C', ?_, ?_, ?_⟩
      · rw [hmem, hstep]
        simp
      · have h1 : (A' ++ p :: C').Perm (A ++ p :: C) :=
          List.Perm.append hpermA (List.Perm.cons p hpermC)
        refine h1.trans ?_
        have h2 : (A ++ p :: C).Perm (p :: (A ++ C)) := List.perm_middle
        refine h2.trans ?_
        have h3 : (p :: (A ++ C)).Perm (p :: init) := List.Perm.cons p hperm
        refine h3.trans ?_
        exact (List.perm_append_singleton p init).symm
      · intro H
        refine List.Chain'.append (hsortA H) ?_ ?_
        · refine List.Chain'.cons' (hsortC H) ?_
          intro y hy
          have hyC : y ∈ C := hpermC.subset (List.mem_of_mem_head? hy)
          exact H y p (hC y hyC)
        · intro x hx y hy
          have hxA : x ∈ A := hpermA.subset (List.mem_of_mem_getLast? hx)
          have hyp : p = y := by simpa using hy
          rw [← hyp]
          exact le_of_lt (hA x hxA)

theorem set_same (d : List ArrayListValue) (k : Nat) (v : ArrayListValue)
    (h : d[k]? = some v) : d.set k v = d := by
  obtain ⟨hk, hv⟩ := List.getElem?_eq_some_iff.mp h
  apply List.ext_getElem (by simp)
  intro n h1 h2
  by_cases hn : k = n
  · subst hn
    simp [hv]
  · simp [List.getElem_set, hn]

/-- The partition loop over items that all compare below the pivot, list 2
being empty: every swap is a swap of a slot with itself. -/
theorem partition_loop_below (cmp : ArrayListValue → ArrayListValue → Int)
    (p : ArrayListValue) (S : List ArrayListValue) (k : Nat) :
    ∀ (R A d : List ArrayListValue) (i : Nat) (l1 : Int),
      d = A ++ (R ++ S) → i = A.length → l1 = (A.length : Int) →
      ((A.length + R.length : Nat) : Int) ≤ 2147483647 →
      (∀ x ∈ R, cmp x p < 0) →
      partition_loop cmp p (R.length + k) d i l1 =
        partition_loop cmp p k d (A.length + R.length) ((A.length + R.length : Nat) : Int) := by
  intro R
  induction R with
  | nil =>
    intro A d i l1 hd hi hl _ _
    subst hd hi hl
    simp
  | cons x R ih =>
    intro A d i l1 hd hi hl hmax hR
    subst hd hi hl
    simp only [List.length_cons] at hmax
    have hx : (A ++ (x :: R ++ S))[A.length]? = some x := by
      simpa using getElem?_mid A (R ++ S) x
    have hlt : A.length < (A ++ (x :: R ++ S)).length := by simp
    have hc : cmp x p < 0 := hR x (List.mem_cons_self _ _)
    have e : (x :: R).length + k = (R.length + k) + 1 := by simp; omega
    rw [e, partition_loop_succ, load_nat _ _ _ hx, Outcome.bind_ret, if_pos hc,
      Outcome.bind_ret, store_nat _ _ _ hlt, Outcome.bind_ret,
      set_same _ _ _ hx, store_nat _ _ _ hlt, Outcome.bind_ret, set_same _ _ _ hx]
    have hw : wrap32 ((A.length : Int) + 1) = ((A ++ [x]).length : Int) := by
      rw [wrap32_of_range _ (by omega) (by omega)]
      simp
    rw [ih (A ++ [x]) (A ++ (x :: R ++ S)) (A.length + 1) (wrap32 (A.length + 1))
      (by simp) (by simp) hw (by simp; omega)
      (fun y hy => hR y (List.mem_cons_of_mem _ hy))]
    have e2 : (A ++ [x]).length + R.length = A.length + (x :: R).length := by
      simp; omega
    rw [e2]

/-- The partition loop over items none of which compares below the pivot:
nothing is moved. -/
theorem partition_loop_not_below (cmp : ArrayListValue → ArrayListValue → Int)
    (p : ArrayListValue) (S : List ArrayListValue) (l1 : Int) :
    ∀ (R A d : List ArrayListValue) (i : Nat),
      d = A ++ (R ++ S) → i = A.length → (∀ x ∈ R, ¬ cmp x p < 0) →
      partition_loop cmp p R.length d i l1 = .ret (d, l1) := by
  intro R
  induction R with
  | nil =>
    intro A d i _ _ _
    rfl
  | cons x R ih =>
    intro A d i hd hi hR
    subst hd hi
    have hx : (A ++ (x :: R ++ S))[A.length]? = some x := by
      simpa using getElem?_mid A (R ++ S) x
    have hc : ¬ cmp x p < 0 := hR x (List.mem_cons_self _ _)
    rw [List.length_cons, partition_loop_succ, load_nat _ _ _ hx, Outcome.bind_ret, if_neg hc]
    exact ih (A ++ [x]) _ _ (by simp) (by simp) (fun y hy => hR y (List.mem_cons_of_mem _ hy))

/-- Lines 278-326 on memory `A ++ P ++ p :: T` where the items of `A` compare
below the pivot `p` and the items of `P` are the handle `p` itself: nothing is
moved, list 1 is `A` and list 2 has the length of `P`. -/
theorem sort_split_unmoved (cmp : ArrayListValue → ArrayListValue → Int)
    (A P T : List ArrayListValue) (p : ArrayListValue) (L : Int)
    (hL : L = ((A.length + P.length : Nat) : Int) + 1) (hmax : L ≤ 2147483647)
    (hA : ∀ x ∈ A, cmp x p < 0) (hP : ∀ x ∈ P, x = p) (hp : ¬ cmp p p < 0) :
    sort_split cmp (A ++ (P ++ p :: T)) L =
      .ret (A ++ (P ++ p :: T), (A.length : Int), (P.length : Int)) := by
  subst hL
  have e1 : wrap32 (((A.length + P.length : Nat) : Int) + 1 - 1) =
      ((A.length + P.length : Nat) : Int) := by
    rw [wrap32_of_range _ (by omega) (by omega)]; omega
  have hpiv : (A ++ (P ++ p :: T))[A.length + P.length]? = some p := by
    have e : A ++ (P ++ p :: T) = (A ++ P) ++ p :: T := by simp
    rw [e, ← List.length_append]
    exact getElem?_mid _ _ _
  have hhead : (A ++ (P ++ p :: T))[A.length]? = some p := by
    cases P with
    | nil => simpa using getElem?_mid A T p
    | cons q P =>
      have hq : q = p := hP q (List.mem_cons_self _ _)
      subst hq
      simpa using getElem?_mid A (P ++ q :: T) q
  have hloop : partition_loop cmp p (A.length + P.length) (A ++ (P ++ p :: T)) 0 0 =
      .ret (A ++ (P ++ p :: T), (A.length : Int)) := by
    have h1 := partition_loop_below cmp p (P ++ p :: T) P.length A [] (A ++ (P ++ p :: T)) 0 0
      (by simp) (by simp) (by simp) (by simp; omega) hA
    simp only [List.length_nil, Nat.zero_add] at h1
    rw [h1]
    exact partition_loop_not_below cmp p (p :: T) (A.length : Int) P A _ _ rfl rfl
      (fun x hx => by rw [hP x hx]; exact hp)
  have hlt1 : A.length + P.length < (A ++ (P ++ p :: T)).length := by simp
  have hlt2 : A.length < (A ++ (P ++ p :: T)).length := by simp
  unfold sort_split
  rw [e1, load_nat _ _ _ hpiv, Outcome.bind_ret, Int.toNat_ofNat, hloop, Outcome.bind_ret]
  dsimp only
  have inner : wrap32 (((A.length + P.length : Nat) : Int) + 1 - (A.length : Int)) =
      ((A.length + P.length : Nat) : Int) + 1 - (A.length : Int) :=
    wrap32_of_range _ (by omega) (by omega)
  have e2 : wrap32 (wrap32 (((A.length + P.length : Nat) : Int) + 1 - (A.length : Int)) - 1) =
      (P.length : Int) := by
    rw [inner, wrap32_of_range _ (by omega) (by omega)]
    omega
  rw [e2, load_nat _ _ _ hhead, Outcome.bind_ret, store_nat _ _ _ hlt1, Outcome.bind_ret,
    set_same _ _ _ hpiv, store_nat _ _ _ hlt2, Outcome.bind_ret, set_same _ _ _ hhead]

/-- A list sorted with ties only between identical handles, seen from its last
item `p`: first the items that compare below `p`, then copies of `p`. -/
theorem sorted_before_last (cmp : ArrayListValue → ArrayListValue → Int)
    (hasym : ∀ x y, cmp x y < 0 → ¬ cmp y x < 0) (p : ArrayListValue) :
    ∀ init : List ArrayListValue,
      List.Pairwise (fun x y => cmp x y < 0 ∨ x = y) init →
      (∀ x ∈ init, cmp x p < 0 ∨ x = p) →
      ∃ A P, init = A ++ P ∧ (∀ x ∈ A, cmp x p < 0) ∧ (∀ x ∈ P, x = p) := by
  intro init
  induction init with
  | nil =>
    intro _ _
    exact ⟨[], [], rfl, by simp, by simp⟩
  | cons x rest ih =>
    intro hpw hlast
    obtain ⟨hx, hrest⟩ := List.pairwise_cons.mp hpw
    by_cases hc : cmp x p < 0
    · obtain ⟨A, P, hAP, hA, hP⟩ :=
        ih hrest (fun y hy => hlast y (List.mem_cons_of_mem _ hy))
      refine ⟨x :: A, P, by rw [hAP]; rfl, ?_, hP⟩
      intro y hy
      rcases List.mem_cons.mp hy with h | h
      · rw [h]; exact hc
      · exact hA y h
    · have hxp : x = p := by
        rcases hlast x (List.mem_cons_self _ _) with h | h
        · exact absurd h hc
        · exact h
      refine ⟨[], x :: rest, rfl, by simp, ?_⟩
      intro y hy
      rcases List.mem_cons.mp hy with h | h
      · rw [h]; exact hxp
      · rcases hx y h with h1 | h1
        · rcases hlast y (List.mem_cons_of_mem _ h) with h2 | h2
          · rw [hxp] at h1
            exact absurd h2 (hasym p y h1)
          · exact h2
        · rw [← h1]; exact hxp

theorem copies_concat (p : ArrayListValue) :
    ∀ P : List ArrayListValue, (∀ x ∈ P, x = p) → P ++ [p] = p :: P := by
  intro P
  induction P with
  | nil => intro _; rfl
  | cons x P ih =>
    intro h
    have hx : x = p := h x (List.mem_cons_self _ _)
    rw [List.cons_append, ih (fun y hy => h y (List.mem_cons_of_mem _ hy)), hx]

/-- `arraylist_sort_internal` on a segment that is sorted with ties only
between identical handles, under a comparator whose "before" relation is
asymmetric: the memory is returned as it was. -/
theorem sort_internal_unmoved (cmp : ArrayListValue → ArrayListValue → Int)
    (hasym : ∀ x y, cmp x y < 0 → ¬ cmp y x < 0) :
    ∀ (depth : Nat) (seg T : List ArrayListValue) (L : Int),
      L = (seg.length : Int) → seg.length ≤ depth → L ≤ 2147483647 →
      List.Pairwise (fun x y => cmp x y < 0 ∨ x = y) seg →
      arraylist_sort_internal cmp depth (seg ++ T) L = some (.ret (seg ++ T)) := by
  intro depth
  induction depth with
  | zero =>
    intro seg T L hL hd hmax _
    exact sort_internal_small cmp 0 _ L (by omega)
  | succ n ih =>
    intro seg T L hL hd hmax hpw
    by_cases hsmall : L ≤ 1
    · exact sort_internal_small cmp _ _ L hsmall
    · obtain ⟨init, p, hseg, hlen⟩ := exists_init_last seg (by omega)
      subst hseg
      obtain ⟨hinit, hlast⟩ := List.pairwise_append.mp hpw |>.imp_right (fun h => h.2)
      have hlast' : ∀ x ∈ init, cmp x p < 0 ∨ x = p :=
        fun x hx => hlast x hx p (List.mem_singleton_self p)
      obtain ⟨A, P, hAP, hA, hP⟩ := sorted_before_last cmp hasym p init hinit hlast'
      subst hAP
      have hp : ¬ cmp p p < 0 := fun h => hasym p p h h
      have hmem : (A ++ P ++ [p]) ++ T = A ++ (P ++ p :: T) := by simp
      have hsplit := sort_split_unmoved cmp A P T p L
        (by rw [hL]; simp only [List.length_append, List.length_singleton]; push_cast; ring)
        hmax hA hP hp
      have hpwA : List.Pairwise (fun x y => cmp x y < 0 ∨ x = y) A :=
        (List.pairwise_append.mp hinit).1
      have hpwP : List.Pairwise (fun x y => cmp x y < 0 ∨ x = y) P :=
        (List.pairwise_append.mp hinit).2.1
      simp only [List.length_append, List.length_singleton] at hd hlen hL
      have hrunA := ih A (P ++ p :: T) (A.length : Int) rfl (by omega) (by omega) hpwA
      have hrunP := ih P T (P.length : Int) rfl (by omega) (by omega) hpwP
      have hoff : wrap32 ((A.length : Int) + 1) = ((A.length + 1 : Nat) : Int) := by
        rw [wrap32_of_range _ (by omega) (by omega)]
        omega
      have hshape : A ++ (P ++ p :: T) = (A ++ [p]) ++ (P ++ T) := by
        have := copies_concat p P hP
        calc A ++ (P ++ p :: T) = A ++ ((P ++ [p]) ++ T) := by simp
          _ = A ++ ((p :: P) ++ T) := by rw [this]
          _ = (A ++ [p]) ++ (P ++ T) := by simp
      have hdrop : (A ++ (P ++ p :: T)).drop (A.length + 1) = P ++ T := by
        have hl : A.length + 1 = (A ++ [p]).length := by simp
        rw [hshape, hl, List.drop_left]
      have hstep := sort_internal_step cmp n (A ++ (P ++ p :: T)) _ (A ++ (P ++ p :: T))
        (P ++ T) L _ _ hsmall hsplit hrunA
        (by rw [hoff]; constructor
            · omega
            · simp only [List.length_append, List.length_cons, Nat.cast_add, Nat.cast_one]
              omega)
        (by rw [hoff, Int.toNat_ofNat, hdrop]; exact hrunP)
      rw [hmem, hstep, hoff, Int.toNat_ofNat]
      have hl : A.length + 1 = (A ++ [p]).length := by simp
      rw [hshape, hl, List.take_left]

theorem sort_run (a : ArrayList) (cmp : ArrayListValue → ArrayListValue → Int)
    (d : List ArrayListValue) (hfree : a.spinlock = false)
    (h : arraylist_sort_internal cmp a.length.toNat a.data a.length = some (.ret d)) :
    arraylist_sort a cmp =
      some (.ret { data := d, length := a.length, _alloced := a._alloced,
                   spinlock := false }) := by
  unfold arraylist_sort
  rw [spin_lock_free a hfree]
  simp only [h]
  rfl

/-- `arraylist_sort` on a well-formed container with the lock free: it
returns, only the occupied slots change, and they are permuted (and sorted
under the condition of `sort_internal_spec`). -/
theorem sort_spec (a : ArrayList) (cmp : ArrayListValue → ArrayListValue → Int)
    (hfree : a.spinlock = false) (hwf : WF a) :
    ∃ a', arraylist_sort a cmp = some (.ret a') ∧ a'.spinlock = false ∧
      a'.length = a.length ∧ a'._alloced = a._alloced ∧ a'.data.length = a.data.length ∧
      (slots a').Perm (slots a) ∧
      ((∀ x y, ¬ cmp x y < 0 → cmp y x ≤ 0) →
        List.Chain' (fun x y => cmp x y ≤ 0) (slots a')) := by
  have hS := slots_length a hwf
  obtain ⟨hl0, hl1, hcapmax, hblk⟩ := hwf
  unfold INT_MAX at hcapmax
  have hdata : a.data = slots a ++ a.data.drop a.length.toNat :=
    (List.take_append_drop _ _).symm
  obtain ⟨seg', hrun, hperm, hsorted⟩ :=
    sort_internal_spec cmp a.length.toNat (slots a) (a.data.drop a.length.toNat) a.length
      (by rw [hS]; omega) (by rw [hS]) (by omega)
  rw [← hdata] at hrun
  have hlen' : seg'.length = a.length.toNat := by rw [hperm.length_eq, hS]
  have hslots' : (seg' ++ a.data.drop a.length.toNat).take a.length.toNat = seg' := by
    rw [← hlen', List.take_left]
  refine ⟨_, sort_run a cmp _ hfree hrun, rfl, rfl, rfl, ?_, ?_, ?_⟩
  · show (seg' ++ a.data.drop a.length.toNat).length = a.data.length
    rw [List.length_append, hlen', List.length_drop]
    omega
  · show ((seg' ++ a.data.drop a.length.toNat).take a.length.toNat).Perm (slots a)
    rw [hslots']; exact hperm
  · intro H
    show List.Chain' _ ((seg' ++ a.data.drop a.length.toNat).take a.length.toNat)
    rw [hslots']; exact hsorted H

theorem numeric_compare_neg (x y : Nat) : numeric_compare x y < 0 ↔ x < y := by
  unfold numeric_compare
  by_cases h : x < y
  · simp [h]
  · by_cases h2 : x = y
    · simp [h, h2]
    · simp [h, h2]

theorem numeric_compare_antisymm (x y : Nat) :
    numeric_compare x y < 0 ↔ 0 < numeric_compare y x := by
  unfold numeric_compare
  rcases Nat.lt_trichotomy x y with h | h | h
  · have h2 : ¬ y < x := Nat.lt_asymm h
    have h3 : ¬ y = x := fun e => Nat.lt_irrefl x (e ▸ h)
    simp [h, h2, h3]
  · subst h
    simp
  · have h2 : ¬ x < y := Nat.lt_asymm h
    have h3 : ¬ x = y := fun e => Nat.lt_irrefl y (e ▸ h)
    simp [h, h2, h3]

theorem numeric_compare_asymm (x y : Nat) :
    numeric_compare x y < 0 → ¬ numeric_compare y x < 0 := by
  rw [numeric_compare_neg, numeric_compare_neg]
  exact Nat.lt_asymm

theorem numeric_compare_trans (x y z : Nat) :
    numeric_compare x y < 0 → numeric_compare y z < 0 → numeric_compare x z < 0 := by
  rw [numeric_compare_neg, numeric_compare_neg, numeric_compare_neg]
  exact Nat.lt_trans

/-- C20: for every comparator, `arraylist_sort` on a well-formed container
with the lock free returns (the recursion ends within `length` nested calls),
the occupied slots afterwards are a permutation of those before, and `length`
and `_alloced` are unchanged; every partition step of
`arraylist_sort_internal` on `list_length >= 2` items yields sub-ranges with
`list1_length + list2_length = list_length - 1`, both shorter than
`list_length`. -/
theorem C20_sort_terminates_permutes (a : ArrayList)
    (compare_func : ArrayListValue → ArrayListValue → Int)
    (hfree : a.spinlock = false) (hwf : WF a) :
    (∃ a', arraylist_sort a compare_func = some (.ret a') ∧
      (slots a').Perm (slots a) ∧ a'.length = a.length ∧ a'._alloced = a._alloced) ∧
    (∀ (init T : List ArrayListValue) (p : ArrayListValue) (list_length : Int),
      list_length = (init.length : Int) + 1 → list_length ≤ INT_MAX →
      ∃ d list1_length list2_length,
        sort_split compare_func (init ++ p :: T) list_length =
          .ret (d, list1_length, list2_length) ∧
        0 ≤ list1_length ∧ 0 ≤ list2_length ∧
        list1_length + list2_length = list_length - 1 ∧
        list1_length < list_length ∧ list2_length < list_length) := by
  constructor
  · obtain ⟨a', hrun, -, hlen, hcap, -, hperm, -⟩ := sort_spec a compare_func hfree hwf
    exact ⟨a', hrun, hperm, hlen, hcap⟩
  · intro init T p L hL hmax
    obtain ⟨A, C, hsplit, hperm, -, -⟩ := sort_split_spec compare_func init T p L hL hmax
    have hAC : A.length + C.length = init.length := by
      have := hperm.length_eq
      simpa using this
    exact ⟨_, _, _, hsplit, by omega, by omega, by omega, by omega, by omega⟩

/-- C15: for a comparator that is antisymmetric in sign, after `arraylist_sort`
on a well-formed container with the lock free every adjacent pair `(x, y)` of
occupied slots satisfies `compare(x, y) <= 0`.  Transitivity of the comparator
is not needed for this. -/
theorem C15_sort_sorted (a : ArrayList)
    (compare_func : ArrayListValue → ArrayListValue → Int)
    (hfree : a.spinlock = false) (hwf : WF a)
    (hanti : ∀ x y, compare_func x y < 0 ↔ 0 < compare_func y x) :
    ∃ a', arraylist_sort a compare_func = some (.ret a') ∧
      List.Chain' (fun x y => compare_func x y ≤ 0) (slots a') := by
  obtain ⟨a', hrun, -, -, -, -, -, hsorted⟩ := sort_spec a compare_func hfree hwf
  refine ⟨a', hrun, hsorted ?_⟩
  intro x y hxy
  have h := (hanti y x).not
  have h2 : ¬ (0 < compare_func y x) := fun h3 => hxy ((hanti x y).mpr h3)
  omega

/-- Witness of C20: sorting `[5, 3, 1, 4]` under a comparator that always
answers "before". -/
theorem C20_sort_terminates_permutes_witness :
    WF sample5314 ∧
      ∃ a', arraylist_sort sample5314 (fun _ _ => -1) = some (.ret a') ∧
        (slots a').Perm (slots sample5314) ∧ a'.length = sample5314.length ∧
        a'._alloced = sample5314._alloced :=
  ⟨by decide,
    (C20_sort_terminates_permutes sample5314 (fun _ _ => -1) (by decide) (by decide)).1⟩

/-- Witness of C15: `[5, 3, 1, 4]` under the numeric ascending comparator
becomes `[1, 3, 4, 5]`. -/
theorem C15_sort_sorted_witness :
    WF sample5314 ∧
      (∃ a', arraylist_sort sample5314 numeric_compare = some (.ret a') ∧
        List.Chain' (fun x y => numeric_compare x y ≤ 0) (slots a')) ∧
      arraylist_sort sample5314 numeric_compare =
        some (.ret { data := [1, 3, 4, 5], length := 4, _alloced := 4, spinlock := false }) :=
  ⟨by decide,
    C15_sort_sorted sample5314 numeric_compare (by decide) (by decide) numeric_compare_antisymm,
    by decide⟩

/-- C16 (amended): on a well-formed container with the lock free,
`arraylist_sort` returns the container exactly as it was when the list is
empty, or when the comparator's "before" relation (`compare < 0`) is
asymmetric and transitive and every adjacent pair of occupied slots is
strictly ordered or holds the same handle twice (no tie between distinct
handles). -/
theorem C16_sort_sorted_unmoved (a : ArrayList)
    (compare_func : ArrayListValue → ArrayListValue → Int)
    (hfree : a.spinlock = false) (hwf : WF a)
    (hcase : a.length = 0 ∨
      ((∀ x y, compare_func x y < 0 → ¬ compare_func y x < 0) ∧
        (∀ x y z, compare_func x y < 0 → compare_func y z < 0 → compare_func x z < 0) ∧
        List.Chain' (fun x y => compare_func x y < 0 ∨ x = y) (slots a))) :
    arraylist_sort a compare_func = some (.ret a) := by
  have hS := slots_length a hwf
  obtain ⟨hl0, hl1, hcapmax, hblk⟩ := hwf
  unfold INT_MAX at hcapmax
  have hself : ArrayList.mk a.data a.length a._alloced false = a := by
    cases a
    simp_all
  have hdata : a.data = slots a ++ a.data.drop a.length.toNat :=
    (List.take_append_drop _ _).symm
  have hfin : arraylist_sort_internal compare_func a.length.toNat a.data a.length =
      some (.ret a.data) → arraylist_sort a compare_func = some (.ret a) := by
    intro h
    rw [sort_run a compare_func a.data hfree h, hself]
  apply hfin
  rcases hcase with hempty | ⟨hasym, htrans, hchain⟩
  · exact sort_internal_small compare_func _ _ _ (by omega)
  · haveI : IsTrans ArrayListValue (fun x y => compare_func x y < 0 ∨ x = y) :=
      ⟨fun x y z hxy hyz => by
        rcases hxy with h1 | h1
        · rcases hyz with h2 | h2
          · exact Or.inl (htrans x y z h1 h2)
          · rw [← h2]; exact Or.inl h1
        · rw [h1]; exact hyz⟩
    have hpw : List.Pairwise (fun x y => compare_func x y < 0 ∨ x = y) (slots a) :=
      List.chain'_iff_pairwise.mp hchain
    have hrun := sort_internal_unmoved compare_func hasym a.length.toNat (slots a)
      (a.data.drop a.length.toNat) a.length (by rw [hS]; omega) (by rw [hS]) (by omega) hpw
    rw [← hdata] at hrun
    exact hrun

/-- Witness of C16: `[7, 8, 9]` under the numeric ascending comparator. -/
theorem C16_sort_sorted_unmoved_witness :
    WF sample3 ∧ List.Chain' (fun x y => numeric_compare x y < 0 ∨ x = y) (slots sample3) ∧
      arraylist_sort sample3 numeric_compare = some (.ret sample3) :=
  ⟨by decide, by simp [slots, sample3, numeric_compare],
    C16_sort_sorted_unmoved sample3 numeric_compare (by decide) (by decide)
      (Or.inr ⟨numeric_compare_asymm, numeric_compare_trans,
        by simp [slots, sample3, numeric_compare]⟩)⟩

/-- C16 as stated fails when distinct handles tie: under the comparator that
ties all handles the list `[7, 8]` is sorted (its adjacent pair compares `<=
0`), yet `arraylist_sort` returns `[8, 7]`. -/
theorem C16_sort_sorted_counterexample :
    WF sampleFull ∧
      List.Chain' (fun x y => tie_compare x y ≤ 0) (slots sampleFull) ∧
      arraylist_sort sampleFull tie_compare =
        some (.ret { data := [8, 7], length := 2, _alloced := 2, spinlock := false }) ∧
      slots { data := [8, 7], length := 2, _alloced := 2, spinlock := false } ≠
        slots sampleFull :=
  ⟨by decide, by simp [slots, sampleFull, tie_compare], by decide, by decide⟩

/-! ## The invariant `0 <= length <= _alloced` -/

end ArrayListModel
